import Mathlib

set_option maxHeartbeats 1000000

/-!
Verification development for the ffpe repository token-resolution core:
the DNS/IP resolver with fw_objects fallback (src/fgpol/resolver.py),
the port compression algorithm (src/scripts/resolve_ports.py), and the
port expansion helper (src/scripts/export_services.py).

The Python code is shallowly embedded: strings are Lean strings, Python
dicts (insertion ordered) are association lists, machine-free integers
are Nat, fallible library calls return Option, and the blocking DNS
calls are modelled by oracle functions passed as parameters.  Calls into
the Python standard library (str methods, the ipaddress module) are
re-implemented below following the CPython semantics the code relies
on; ASCII data is modelled exactly, while exotic unicode corner cases
(unicode digit classes, unicode whitespace, IPv6 scope suffixes) are
modelled as parse failures.
-/

/-! ### Python string primitives -/

/-- Whitespace characters recognised by Python str.strip / str.split
(ASCII subset). -/
def pyIsSpace (c : Char) : Bool :=
  c = ' ' || c = '\t' || c = '\n' || c = '\r' || c = '\x0b' || c = '\x0c'

/-- Python str.strip on a character list. -/
def stripL (l : List Char) : List Char :=
  ((l.dropWhile pyIsSpace).reverse.dropWhile pyIsSpace).reverse

/-- Python str.strip. -/
def pyStrip (s : String) : String := String.mk (stripL s.data)

/-- ASCII decimal digit test (Python str.isdigit restricted to ASCII;
non-ASCII digits are rejected everywhere they would matter because the
CPython ipaddress module insists on isascii as well). -/
def isDigitChar (c : Char) : Bool := 48 ≤ c.toNat && c.toNat ≤ 57

/-- Python str.isdigit on a character list: nonempty and all digits. -/
def isDigitsL (l : List Char) : Bool := !l.isEmpty && l.all isDigitChar

/-- Python int() on a digit string. -/
def digitsToNat (l : List Char) : Nat := l.foldl (fun a c => a * 10 + (c.toNat - 48)) 0

/-- Decimal digit character for a digit value (value 9 for anything
out of range, which never occurs). -/
def digitChar (d : Nat) : Char :=
  match d with
  | 0 => '0' | 1 => '1' | 2 => '2' | 3 => '3' | 4 => '4'
  | 5 => '5' | 6 => '6' | 7 => '7' | 8 => '8' | _ => '9'

/-- Decimal digits, least significant first, with explicit fuel (the
fuel only has to dominate the digit count). -/
def natDigitsLEAux : Nat → Nat → List Char
  | 0, _ => []
  | f + 1, n =>
    if n = 0 then [] else digitChar (n % 10) :: natDigitsLEAux f (n / 10)

/-- Decimal digits of a positive number, least significant first. -/
def natDigitsLE (n : Nat) : List Char := natDigitsLEAux n n

/-- Decimal digits of a number, most significant first (Python str(int)). -/
def natReprL (n : Nat) : List Char :=
  if n = 0 then ['0'] else (natDigitsLE n).reverse

/-- Python str(int) / f-string rendering of a nonnegative integer. -/
def natRepr (n : Nat) : String := String.mk (natReprL n)

/-- Split at the first occurrence of a character (Python s.split(c, 1));
none when the character does not occur. -/
def splitFirst (c : Char) : List Char → Option (List Char × List Char)
  | [] => none
  | a :: rest =>
    if a = c then some ([], rest)
    else (splitFirst c rest).map (fun p => (a :: p.1, p.2))

/-- Split at the last occurrence of a character (Python s.rsplit(c, 1));
none when the character does not occur. -/
def splitLast (c : Char) : List Char → Option (List Char × List Char)
  | [] => none
  | a :: rest =>
    match splitLast c rest with
    | some p => some (a :: p.1, p.2)
    | none => if a = c then some ([], rest) else none

/-- Split on every occurrence of a character (Python s.split(c)); the
result is always nonempty. -/
def splitAllChar (c : Char) : List Char → List (List Char)
  | [] => [[]]
  | a :: rest =>
    match splitAllChar c rest with
    | [] => [[]]
    | h :: t => if a = c then [] :: h :: t else (a :: h) :: t

/-- Helper for whitespace splitting, carrying the current (reversed) token. -/
def wsSplitGo : List Char → List Char → List (List Char)
  | [], cur => if cur.isEmpty then [] else [cur.reverse]
  | c :: rest, cur =>
    if pyIsSpace c then
      if cur.isEmpty then wsSplitGo rest [] else cur.reverse :: wsSplitGo rest []
    else wsSplitGo rest (c :: cur)

/-- Python s.split() with no argument: split on whitespace runs,
dropping empty tokens. -/
def wsSplit (l : List Char) : List (List Char) := wsSplitGo l []

/-- ASCII lower-casing of one character (Python str.lower on ASCII). -/
def lowerChar (c : Char) : Char :=
  if 'A' ≤ c && c ≤ 'Z' then Char.ofNat (c.toNat + 32) else c

/-- Python str.lower (ASCII letters only; other characters unchanged). -/
def pyLower (s : String) : String := String.mk (s.data.map lowerChar)

/-! ### The ipaddress module: addresses -/

/-- Parsed IP address (ipaddress.IPv4Address / IPv6Address), the value
is the integer form of the address. -/
inductive IpAddr
  | v4 (val : Nat)
  | v6 (val : Nat)
deriving DecidableEq, Repr

/-- IP version number of an address. -/
def IpAddr.version : IpAddr → Nat
  | .v4 _ => 4
  | .v6 _ => 6

/-- Width of the address in bits; also the host-route prefix length. -/
def IpAddr.bits : IpAddr → Nat
  | .v4 _ => 32
  | .v6 _ => 128

/-- One dotted-quad octet (CPython IPv4Address parse: ASCII digits, at
most three of them, no leading zeros, value at most 255). -/
def parseOctet (l : List Char) : Option Nat :=
  if !isDigitsL l then none
  else if 3 < l.length then none
  else if 1 < l.length && l.headD '0' = '0' then none
  else if digitsToNat l ≤ 255 then some (digitsToNat l) else none

/-- CPython IPv4Address string parse, producing the 32-bit value. -/
def parseIPv4L (l : List Char) : Option Nat :=
  match splitAllChar '.' l with
  | [a, b, c, d] =>
    match parseOctet a, parseOctet b, parseOctet c, parseOctet d with
    | some x, some y, some z, some w => some (((x * 256 + y) * 256 + z) * 256 + w)
    | _, _, _, _ => none
  | _ => none

/-- Hexadecimal digit test. -/
def isHexChar (c : Char) : Bool :=
  isDigitChar c || ('a' ≤ c && c ≤ 'f') || ('A' ≤ c && c ≤ 'F')

/-- Value of one hexadecimal digit. -/
def hexVal (c : Char) : Nat :=
  if isDigitChar c then c.toNat - 48
  else if 'a' ≤ c && c ≤ 'f' then c.toNat - 87
  else c.toNat - 55

/-- Python int(s, 16) on a hex string. -/
def hexToNat (l : List Char) : Nat := l.foldl (fun a c => a * 16 + hexVal c) 0

/-- One IPv6 hextet (CPython: only hex digits, at most four, nonempty). -/
def parseHextet (l : List Char) : Option Nat :=
  if l.isEmpty || 4 < l.length || !l.all isHexChar then none
  else some (hexToNat l)

/-- Parse every hextet in a list of parts. -/
def parseHextets : List (List Char) → Option (List Nat)
  | [] => some []
  | p :: ps =>
    match parseHextet p, parseHextets ps with
    | some v, some vs => some (v :: vs)
    | _, _ => none

/-- Big-endian 16-bit chunks folded into one integer. -/
def hextetsVal (hs : List Nat) : Nat := hs.foldl (fun a h => a * 65536 + h) 0

/-- Lowercase hexadecimal digit character for a digit value. -/
def hexDigitChar (d : Nat) : Char :=
  match d with
  | 0 => '0' | 1 => '1' | 2 => '2' | 3 => '3' | 4 => '4'
  | 5 => '5' | 6 => '6' | 7 => '7' | 8 => '8' | 9 => '9'
  | 10 => 'a' | 11 => 'b' | 12 => 'c' | 13 => 'd' | 14 => 'e' | _ => 'f'

/-- Lowercase hex digits, least significant first, with explicit fuel. -/
def natHexLEAux : Nat → Nat → List Char
  | 0, _ => []
  | f + 1, n =>
    if n = 0 then [] else hexDigitChar (n % 16) :: natHexLEAux f (n / 16)

/-- Lowercase hex digits of a positive number, least significant first. -/
def natHexLE (n : Nat) : List Char := natHexLEAux n n

/-- Lowercase hexadecimal rendering without leading zeros (Python hex
formatting of a hextet). -/
def natHexChars (n : Nat) : List Char :=
  if n = 0 then ['0'] else (natHexLE n).reverse

/-- Indices of empty parts strictly between the first and the last part
(the candidate positions of a double colon). -/
def innerEmptyIdxs (parts : List (List Char)) : List Nat :=
  (List.range parts.length).filter
    (fun i => decide (1 ≤ i) && decide (i + 1 < parts.length) && decide (parts.getD i [' '] = []))

/-- CPython IPv6 hextet assembly once the colon-separated parts are
known and embedded IPv4 has been substituted; mirrors the skip-index
logic of IPv6Address from ipaddress. -/
def parseIPv6Core (parts : List (List Char)) : Option Nat :=
  match innerEmptyIdxs parts with
  | [] =>
    if parts.length = 8 && !(parts.headD [] = []) && !(parts.getLastD [] = []) then
      (parseHextets parts).map hextetsVal
    else none
  | [i] =>
    let nh? : Option Nat :=
      if parts.headD [' '] = [] then (if i = 1 then some 0 else none) else some i
    let nl? : Option Nat :=
      if parts.getLastD [' '] = [] then (if i = parts.length - 2 then some 0 else none)
      else some (parts.length - i - 1)
    match nh?, nl? with
    | some nh, some nl =>
      if nh + nl ≤ 7 then
        match parseHextets (parts.take nh), parseHextets (parts.drop (parts.length - nl)) with
        | some hi, some lo => some (hextetsVal (hi ++ List.replicate (8 - (nh + nl)) 0 ++ lo))
        | _, _ => none
      else none
    | _, _ => none
  | _ => none

/-- CPython IPv6Address string parse, producing the 128-bit value.
Scoped addresses (with a percent suffix) are modelled as failures. -/
def parseIPv6L (l : List Char) : Option Nat :=
  let parts := splitAllChar ':' l
  if parts.length < 3 then none
  else
    let parts? : Option (List (List Char)) :=
      if (parts.getLastD []).contains '.' then
        match parseIPv4L (parts.getLastD []) with
        | some v => some (parts.dropLast ++ [natHexChars (v / 65536), natHexChars (v % 65536)])
        | none => none
      else some parts
    match parts? with
    | none => none
    | some ps => if 9 < ps.length then none else parseIPv6Core ps

/-- ipaddress.ip_address: try IPv4, then IPv6. -/
def ip_address (s : String) : Option IpAddr :=
  match parseIPv4L s.data with
  | some v => some (IpAddr.v4 v)
  | none => (parseIPv6L s.data).map IpAddr.v6

/-! ### The ipaddress module: networks -/

/-- Parsed IP network (ipaddress.IPv4Network / IPv6Network): version,
network address (host bits zero) and prefix length. -/
structure IpNetwork where
  version : Nat
  addr : Nat
  prefixlen : Nat
deriving DecidableEq, Repr

/-- Address width of the network in bits. -/
def IpNetwork.bits (n : IpNetwork) : Nat := if n.version = 4 then 32 else 128

/-- Build a network from an address and prefix length with strict=False
semantics: host bits are masked away. -/
def mkNetwork (ip : IpAddr) (plen : Nat) : IpNetwork :=
  match ip with
  | .v4 v => ⟨4, (v >>> (32 - plen)) <<< (32 - plen), plen⟩
  | .v6 v => ⟨6, (v >>> (128 - plen)) <<< (128 - plen), plen⟩

/-- Membership of an address in a network (the Python expression
address in network); false across versions. -/
def ipInNetwork (net : IpNetwork) (ip : IpAddr) : Bool :=
  match ip with
  | .v4 v => net.version = 4 && v >>> (32 - net.prefixlen) = net.addr >>> (32 - net.prefixlen)
  | .v6 v => net.version = 6 && v >>> (128 - net.prefixlen) = net.addr >>> (128 - net.prefixlen)

/-- Count of trailing zero bits, with the CPython convention that the
all-zero value has as many as the address width. -/
def ctz (fuel v : Nat) : Nat :=
  match fuel with
  | 0 => 0
  | f + 1 => if v % 2 = 1 then 0 else if v = 0 then f + 1 else 1 + ctz f (v / 2)

/-- CPython prefix-from-netmask: the value must consist of ones
followed by zeros; returns the count of leading ones. -/
def prefixFromIpInt (bits v : Nat) : Option Nat :=
  let tz := if v = 0 then bits else ctz bits v
  let plen := bits - tz
  if v >>> tz = 2 ^ plen - 1 then some plen else none

/-- CPython prefix-from-ip-string for IPv4: parse as dotted quad, try
netmask form, then hostmask (complement) form. -/
def prefixFromIpStringV4 (l : List Char) : Option Nat :=
  match parseIPv4L l with
  | none => none
  | some v =>
    match prefixFromIpInt 32 v with
    | some p => some p
    | none => prefixFromIpInt 32 (2 ^ 32 - 1 - v)

/-- CPython prefix-from-ip-string for IPv6. -/
def prefixFromIpStringV6 (l : List Char) : Option Nat :=
  match parseIPv6L l with
  | none => none
  | some v =>
    match prefixFromIpInt 128 v with
    | some p => some p
    | none => prefixFromIpInt 128 (2 ^ 128 - 1 - v)

/-- CPython IPv4Network netmask argument: decimal prefix length if it
is an ASCII digit string in range, otherwise dotted netmask/hostmask. -/
def parseNetmaskV4 (m : List Char) : Option Nat :=
  if isDigitsL m then
    (if digitsToNat m ≤ 32 then some (digitsToNat m) else prefixFromIpStringV4 m)
  else prefixFromIpStringV4 m

/-- CPython IPv6Network netmask argument. -/
def parseNetmaskV6 (m : List Char) : Option Nat :=
  if isDigitsL m then
    (if digitsToNat m ≤ 128 then some (digitsToNat m) else prefixFromIpStringV6 m)
  else prefixFromIpStringV6 m

/-- Split an address string at its optional single slash; more than one
slash is an error (CPython split-optional-netmask). -/
def splitNetmask (l : List Char) : Option (List Char × Option (List Char)) :=
  match splitAllChar '/' l with
  | [a] => some (a, none)
  | [a, m] => some (a, some m)
  | _ => none

/-- ipaddress.IPv4Network(s, strict=False) as an Option. -/
def ipNetworkV4 (s : String) : Option IpNetwork :=
  match splitNetmask s.data with
  | none => none
  | some (a, m) =>
    match parseIPv4L a with
    | none => none
    | some v =>
      match (match m with | none => some 32 | some ms => parseNetmaskV4 ms) with
      | none => none
      | some p => some (mkNetwork (IpAddr.v4 v) p)

/-- ipaddress.IPv6Network(s, strict=False) as an Option. -/
def ipNetworkV6 (s : String) : Option IpNetwork :=
  match splitNetmask s.data with
  | none => none
  | some (a, m) =>
    match parseIPv6L a with
    | none => none
    | some v =>
      match (match m with | none => some 128 | some ms => parseNetmaskV6 ms) with
      | none => none
      | some p => some (mkNetwork (IpAddr.v6 v) p)

/-- ipaddress.ip_network(s, strict=False): try IPv4Network first, then
IPv6Network. -/
def ip_network (s : String) : Option IpNetwork :=
  match ipNetworkV4 s with
  | some n => some n
  | none => ipNetworkV6 s

/-! ### The ipaddress module: address rendering (str) -/

/-- Dotted-quad rendering of a 32-bit value (str of an IPv4Address). -/
def renderV4 (v : Nat) : String :=
  String.mk (natReprL (v >>> 24 % 256) ++ '.' :: natReprL (v >>> 16 % 256) ++
    '.' :: natReprL (v >>> 8 % 256) ++ '.' :: natReprL (v % 256))

/-- State step for the CPython compress-hextets scan locating the
leftmost longest run of zero hextets. -/
def zeroRunStep (st : Nat × Int × Nat × Int × Nat) (h : Nat) : Nat × Int × Nat × Int × Nat :=
  let idx := st.1
  let curStart := st.2.1
  let curLen := st.2.2.1
  let bestStart := st.2.2.2.1
  let bestLen := st.2.2.2.2
  if h = 0 then
    let curStart := if curStart = -1 then (idx : Int) else curStart
    let curLen := curLen + 1
    if bestLen < curLen then (idx + 1, curStart, curLen, curStart, curLen)
    else (idx + 1, curStart, curLen, bestStart, bestLen)
  else (idx + 1, -1, 0, bestStart, bestLen)

/-- Leftmost longest run of zeros in a hextet list: (start, length). -/
def bestZeroRun (hs : List Nat) : Int × Nat :=
  let st := hs.foldl zeroRunStep (0, -1, 0, -1, 0)
  (st.2.2.2.1, st.2.2.2.2)

/-- The eight 16-bit hextets of a 128-bit value, most significant first. -/
def v6Hextets (v : Nat) : List Nat :=
  [v >>> 112 % 65536, v >>> 96 % 65536, v >>> 80 % 65536, v >>> 64 % 65536,
   v >>> 48 % 65536, v >>> 32 % 65536, v >>> 16 % 65536, v % 65536]

/-- Compressed rendering of an IPv6 value (str of an IPv6Address):
hextets in lowercase hex without leading zeros, with the leftmost
longest run of at least two zero hextets collapsed to a double colon. -/
def renderV6 (v : Nat) : String :=
  let hs := v6Hextets v
  let hexed := hs.map natHexChars
  let br := bestZeroRun hs
  let parts :=
    if 1 < br.2 then
      let s := br.1.toNat
      let e := s + br.2
      let mid := hexed.take s ++ [[]] ++ hexed.drop e
      let mid := if e = 8 then mid ++ [[]] else mid
      if s = 0 then [] :: mid else mid
    else hexed
  String.mk (List.intercalate [':'] parts)

/-- Rendering of an address value of either version. -/
def renderIpVal (version v : Nat) : String :=
  if version = 4 then renderV4 v else renderV6 v

/-- Python f-string network.network_address slash network.prefixlen
used for the name-to-ref value of subnet entries. -/
def renderNetRef (n : IpNetwork) : String :=
  renderIpVal n.version n.addr ++ "/" ++ natRepr n.prefixlen

/-! ### Python dict operations (insertion-ordered association lists) -/

/-- Python dict lookup d.get(k). -/
def dictGet {α : Type} (d : List (String × α)) (k : String) : Option α :=
  (d.find? (fun p => p.1 = k)).map Prod.snd

/-- Python dict assignment d[k] = v: overwrite in place, else append. -/
def dictSet {α : Type} (d : List (String × α)) (k : String) (v : α) : List (String × α) :=
  if d.any (fun p => p.1 = k) then d.map (fun p => if p.1 = k then (k, v) else p)
  else d ++ [(k, v)]

/-- Python d.setdefault(k, v) ignoring the returned value: insert only
when the key is absent. -/
def dictSetdefault {α : Type} (d : List (String × α)) (k : String) (v : α) : List (String × α) :=
  if d.any (fun p => p.1 = k) then d else d ++ [(k, v)]

/-! ### FwObjectsLookup (src/fgpol/resolver.py) -/

/-- Loaded fw_objects state: the networks list and the name-to-ref map
(both built by load). -/
structure FwObjectsLookup where
  networks : List (IpNetwork × String)
  name_to_ref : List (String × String)
deriving DecidableEq, Repr

/-- Load failure: the header matched neither schema.  The error value
carries both accepted column sets, mirroring the message text of the
ValueError raised by FwObjectsLookup.load. -/
inductive LoadError
  | schemaError (ruCols enCols : List String)
deriving DecidableEq, Repr

instance {ε α : Type} [DecidableEq ε] [DecidableEq α] : DecidableEq (Except ε α) :=
  fun a b =>
    match a, b with
    | Except.ok x, Except.ok y =>
      if h : x = y then Decidable.isTrue (by rw [h])
      else Decidable.isFalse (fun he => h (Except.ok.inj he))
    | Except.error x, Except.error y =>
      if h : x = y then Decidable.isTrue (by rw [h])
      else Decidable.isFalse (fun he => h (Except.error.inj he))
    | Except.ok _, Except.error _ => Decidable.isFalse (fun he => Except.noConfusion he)
    | Except.error _, Except.ok _ => Decidable.isFalse (fun he => Except.noConfusion he)

/-- One CSV row as produced by csv.DictReader: column name to cell. -/
def Row : Type := List (String × String)

/-- Python (row.get(k) or ""): missing and empty cells both give "". -/
def rowGet (r : Row) (k : String) : String := (dictGet r k).getD ""

/-- Columns required by the legacy (RU) schema. -/
def ruCols : List String := ["Имя объекта", "ip", "mask"]

/-- Columns required by the new (EN) schema. -/
def enCols : List String := ["name", "cidr"]

/-- FwObjectsLookup normalize-name: strip then lower. -/
def normalizeName (s : String) : String := pyLower (pyStrip s)

/-- FwObjectsLookup mask-to-prefix: the prefix length of
ipaddress.IPv4Network with address 0.0.0.0 and the given mask string;
any failure is None (the caller skips the row). -/
def maskToPrefixLen (m : String) : Option Nat :=
  if m.data.contains '/' then none
  else if isDigitsL m.data then
    (if digitsToNat m.data ≤ 32 then some (digitsToNat m.data) else prefixFromIpStringV4 m.data)
  else prefixFromIpStringV4 m.data

/-- Host-route prefix length used when the mask column is empty. -/
def ipMaxPrefixLen : IpAddr → Nat
  | .v4 _ => 32
  | .v6 _ => 128

/-- Processing of one row under the RU legacy schema: the loop body of
FwObjectsLookup.load for is_ru, acting on the accumulated (networks,
name-to-ref) pair. -/
def ruStep (acc : List (IpNetwork × String) × List (String × String)) (row : Row) :
    List (IpNetwork × String) × List (String × String) :=
  let name_raw := pyStrip (rowGet row "Имя объекта")
  let ip_str := pyStrip (rowGet row "ip")
  let mask_str := pyStrip (rowGet row "mask")
  if name_raw = "" || ip_str = "" then acc
  else
    match ip_address ip_str with
    | none => acc
    | some ip =>
      match (if mask_str = "" then some (ipMaxPrefixLen ip) else maskToPrefixLen mask_str) with
      | none => acc
      | some plen =>
        let network := mkNetwork ip plen
        let name_norm := normalizeName name_raw
        let refs :=
          if (network.version = 4 && network.prefixlen = 32) ||
             (network.version = 6 && network.prefixlen = 128) then
            dictSet acc.2 name_norm ip_str
          else
            dictSetdefault acc.2 name_norm (renderNetRef network)
        (acc.1 ++ [(network, name_raw)], refs)

/-- Processing of one row under the EN schema: the loop body of
FwObjectsLookup.load for is_en. -/
def enStep (acc : List (IpNetwork × String) × List (String × String)) (row : Row) :
    List (IpNetwork × String) × List (String × String) :=
  let name_raw := pyStrip (rowGet row "name")
  let cidr_str := pyStrip (rowGet row "cidr")
  if name_raw = "" || cidr_str = "" then acc
  else
    match ip_network cidr_str with
    | none => acc
    | some network =>
      (acc.1 ++ [(network, name_raw)], dictSet acc.2 (normalizeName name_raw) cidr_str)

/-- The row loop of FwObjectsLookup.load. -/
def loadRows (isRu : Bool) (acc : List (IpNetwork × String) × List (String × String)) :
    List Row → List (IpNetwork × String) × List (String × String)
  | [] => acc
  | r :: rs => loadRows isRu ((if isRu then ruStep else enStep) acc r) rs

/-- Python list.sort with key prefixlen and reverse=True: a stable sort
descending by prefix length. -/
def sortNetworks (nets : List (IpNetwork × String)) : List (IpNetwork × String) :=
  List.insertionSort (fun a b => b.1.prefixlen ≤ a.1.prefixlen) nets

/-- FwObjectsLookup.load: schema detection on the header followed by the
row loop and the prefix-length sort.  The file-reading and delimiter
sniffing layers are outside the model; a file is its header plus rows. -/
def FwObjectsLookup.load (header : List String) (rows : List Row) :
    Except LoadError FwObjectsLookup :=
  let is_ru := ruCols.all (fun c => header.contains c)
  let is_en := enCols.all (fun c => header.contains c)
  if !(is_ru || is_en) then Except.error (LoadError.schemaError ruCols enCols)
  else
    let acc := loadRows is_ru ([], []) rows
    Except.ok ⟨sortNetworks acc.1, acc.2⟩

/-- The scan loop of find_name_for_ip: first entry of the same version
containing the address. -/
def findNameScan : List (IpNetwork × String) → IpAddr → Option String
  | [], _ => none
  | (net, name) :: rest, ip =>
    if !(net.version = ip.version) then findNameScan rest ip
    else if ipInNetwork net ip then some name
    else findNameScan rest ip

/-- FwObjectsLookup.find_name_for_ip. -/
def FwObjectsLookup.find_name_for_ip (t : FwObjectsLookup) (ip_str : String) : Option String :=
  match ip_address ip_str with
  | none => none
  | some ip => findNameScan t.networks ip

/-- FwObjectsLookup.find_ref_for_name. -/
def FwObjectsLookup.find_ref_for_name (t : FwObjectsLookup) (name : String) : Option String :=
  dictGet t.name_to_ref (normalizeName name)

/-! ### DnsResolver (src/fgpol/resolver.py) -/

/-- Resolved token representation. -/
structure ResolveResult where
  display : String
deriving DecidableEq, Repr

/-- DnsResolver state: the optional fw_objects fallback and the two
memoization caches.  A cached None records a failed lookup. -/
structure DnsResolver where
  fw_objects : Option FwObjectsLookup
  ip_to_name : List (String × Option String)
  name_to_ip : List (String × Option String)
deriving DecidableEq, Repr

/-- Fresh resolver with empty caches. -/
def DnsResolver.init (fw : Option FwObjectsLookup) : DnsResolver := ⟨fw, [], []⟩

/-- DnsResolver.is_ip. -/
def DnsResolver.is_ip (value : String) : Bool := (ip_address value).isSome

/-- Python truthiness of an Optional string: None and the empty string
are falsy. -/
def truthy : Option String → Bool
  | some s => !(s = "")
  | none => false

/-- DnsResolver private PTR lookup with memoization.  The external DNS
is the oracle function; the Nat result counts oracle consultations. -/
def DnsResolver.dns_ptr (oracle : String → Option String) (r : DnsResolver) (ip_str : String) :
    Option String × DnsResolver × Nat :=
  match dictGet r.ip_to_name ip_str with
  | some v => (v, r, 0)
  | none =>
    let v := oracle ip_str
    (v, { r with ip_to_name := dictSet r.ip_to_name ip_str v }, 1)

/-- DnsResolver private forward lookup with memoization; the oracle
returns the first resolved address, if any. -/
def DnsResolver.dns_a (oracle : String → Option String) (r : DnsResolver) (name : String) :
    Option String × DnsResolver × Nat :=
  match dictGet r.name_to_ip name with
  | some v => (v, r, 0)
  | none =>
    let v := oracle name
    (v, { r with name_to_ip := dictSet r.name_to_ip name v }, 1)

/-- DnsResolver.resolve_token: two-pass resolution of one token, with
the PTR and forward DNS oracles passed explicitly.  Returns the display
result, the updated resolver state, and the count of oracle calls. -/
def DnsResolver.resolve_token (ptrOracle aOracle : String → Option String)
    (r : DnsResolver) (token : String) : ResolveResult × DnsResolver × Nat :=
  let cleaned := pyStrip token
  if cleaned = "" then (⟨""⟩, r, 0)
  else if DnsResolver.is_ip cleaned then
    let res := DnsResolver.dns_ptr ptrOracle r cleaned
    if truthy res.1 then (⟨res.1.getD "" ++ "[" ++ cleaned ++ "]"⟩, res.2)
    else
      match res.2.1.fw_objects with
      | some fw =>
        match fw.find_name_for_ip cleaned with
        | some obj_name =>
          if !(obj_name = "") then (⟨obj_name ++ "[" ++ cleaned ++ "]"⟩, res.2)
          else (⟨"?[" ++ cleaned ++ "]"⟩, res.2)
        | none => (⟨"?[" ++ cleaned ++ "]"⟩, res.2)
      | none => (⟨"?[" ++ cleaned ++ "]"⟩, res.2)
  else
    let res := DnsResolver.dns_a aOracle r cleaned
    if truthy res.1 then (⟨cleaned ++ "[" ++ res.1.getD "" ++ "]"⟩, res.2)
    else
      match res.2.1.fw_objects with
      | some fw =>
        match fw.find_ref_for_name cleaned with
        | some fw_ref =>
          if !(fw_ref = "") then (⟨cleaned ++ "[" ++ fw_ref ++ "]"⟩, res.2)
          else (⟨cleaned ++ "[?]"⟩, res.2)
        | none => (⟨cleaned ++ "[?]"⟩, res.2)
      | none => (⟨cleaned ++ "[?]"⟩, res.2)

/-! ### compress_ports (src/scripts/resolve_ports.py) -/

/-- The by-proto setdefault-append of compress_ports: append the port
to the list of its transport, creating the group at the end on first
sight of the transport. -/
def bpAdd (d : List (String × List Nat)) (k : String) (v : Nat) : List (String × List Nat) :=
  if d.any (fun p => p.1 = k) then d.map (fun p => if p.1 = k then (p.1, p.2 ++ [v]) else p)
  else d ++ [(k, [v])]

/-- The first loop of compress_ports: classify each token into the
per-transport integer groups or the passthrough side list. -/
def classifyTokens (acc : List (String × List Nat) × List String) :
    List String → List (String × List Nat) × List String
  | [] => acc
  | t :: ts =>
    let tok := pyStrip t
    if tok = "" then classifyTokens acc ts
    else
      match splitLast '/' tok.data with
      | none => classifyTokens (acc.1, acc.2 ++ [tok]) ts
      | some (pp, pr) =>
        if isDigitsL pp then classifyTokens (bpAdd acc.1 (String.mk pr) (digitsToNat pp), acc.2) ts
        else classifyTokens (acc.1, acc.2 ++ [tok]) ts

/-- Python sorted(set(l)): the ascending list of the distinct elements. -/
def sortedDedup (l : List Nat) : List Nat :=
  List.insertionSort (fun a b : Nat => a ≤ b) l.dedup

/-- Inner loop of the greedy run merge: extend the current [start, cur]
run while the next element is consecutive. -/
def runsAux (start cur : Nat) : List Nat → List (Nat × Nat)
  | [] => [(start, cur)]
  | p :: rest => if p = cur + 1 then runsAux start p rest else (start, cur) :: runsAux p p rest

/-- Greedy decomposition of an ascending list into maximal runs of
consecutive integers (the while loops of compress_ports). -/
def runs : List Nat → List (Nat × Nat)
  | [] => []
  | p :: rest => runsAux p p rest

/-- Rendering of one interval: single port or start-end range. -/
def renderInterval (proto : String) (se : Nat × Nat) : String :=
  if se.1 = se.2 then natRepr se.1 ++ "/" ++ proto
  else natRepr se.1 ++ "-" ++ natRepr se.2 ++ "/" ++ proto

/-- Rendered maximal runs of one transport group. -/
def renderRuns (ports : List Nat) (proto : String) : List String :=
  (runs (sortedDedup ports)).map (renderInterval proto)

/-- The output loop over all transport groups, in insertion order. -/
def renderAllGroups : List (String × List Nat) → List String
  | [] => []
  | (proto, ports) :: rest => renderRuns ports proto ++ renderAllGroups rest

/-- The sort key of compress_ports: transport tag, then leading port
number (ten to the twelfth when non-numeric), then the literal token;
tokens without a slash sort under the tilde transport key. -/
def sortKey (t : String) : String × Nat × String :=
  match splitLast '/' t.data with
  | some (pp, pr) =>
    let first := match splitFirst '-' pp with
      | some q => q.1
      | none => pp
    (String.mk pr, if isDigitsL first then digitsToNat first else 10 ^ 12, t)
  | none => ("~", 10 ^ 12, t)

/-- Python string comparison: strict lexicographic order on the code
points, a proper prefix sorting first. -/
def charsLtB : List Char → List Char → Bool
  | _, [] => false
  | [], _ :: _ => true
  | a :: as, b :: bs =>
    if a.toNat < b.toNat then true
    else if b.toNat < a.toNat then false
    else charsLtB as bs

/-- Python s1 < s2 on strings. -/
def strLtB (a b : String) : Bool := charsLtB a.data b.data

/-- Python s1 <= s2 on strings. -/
def strLeB (a b : String) : Bool := !strLtB b a

/-- Lexicographic comparison of sort keys (Python tuple comparison). -/
def keyLeB (a b : String × Nat × String) : Bool :=
  if strLtB a.1 b.1 then true
  else if strLtB b.1 a.1 then false
  else if a.2.1 < b.2.1 then true
  else if b.2.1 < a.2.1 then false
  else strLeB a.2.2 b.2.2

/-- Token comparison used by the final sorted call of compress_ports. -/
def tokenLeB (a b : String) : Bool := keyLeB (sortKey a) (sortKey b)

/-- compress_ports: group numeric port/proto tokens per transport,
merge maximal consecutive runs, render, append passthrough tokens and
sort by the key. -/
def compress_ports (port_tokens : List String) : List String :=
  let acc := classifyTokens ([], []) port_tokens
  List.insertionSort (fun a b => tokenLeB a b = true) (renderAllGroups acc.1 ++ acc.2)

/-! ### expand_port_tokens (src/scripts/export_services.py) -/

/-- Expansion of one whitespace-separated token of a FortiGate port
string: a numeric start-end range becomes the inclusive list of ports,
anything else is kept verbatim; each output gets the proto suffix. -/
def expandOne (proto_tag : String) (t : List Char) : List String :=
  let ranged : Option (List String) :=
    match splitFirst '-' t with
    | some q =>
      if isDigitsL q.1 && isDigitsL q.2 && decide (digitsToNat q.1 ≤ digitsToNat q.2) then
        some (((List.range' (digitsToNat q.1) (digitsToNat q.2 - digitsToNat q.1 + 1)).map
          (fun p => natRepr p ++ "/" ++ proto_tag)))
      else none
    | none => none
  match ranged with
  | some out => out
  | none => [String.mk t ++ "/" ++ proto_tag]

/-- expand_port_tokens: split the raw port string on whitespace and
expand every token. -/
def expand_port_tokens (ports : String) (proto_tag : String) : List String :=
  if pyStrip ports = "" then []
  else (wsSplit ports.data).map (expandOne proto_tag) |>.flatten

/-! ### Derived notions used by the verification -/

/-- Well-formed port token as classified by compress_ports: it has a
slash and an all-digit port part. -/
def isWfTok (t : String) : Bool :=
  match splitLast '/' t.data with
  | some q => isDigitsL q.1
  | none => false

/-- Canonical rendering of a single port for one transport. -/
def render1 (pr : String) (n : Nat) : String := natRepr n ++ "/" ++ pr

/-- Parsed transport key and port of a token, when compress_ports
classifies it as well-formed. -/
def tokKey (t : String) : Option (String × Nat) :=
  match splitLast '/' (pyStrip t).data with
  | some q => if isDigitsL q.1 then some (String.mk q.2, digitsToNat q.1) else none
  | none => none

/-- Ports recorded under one transport key of the by-proto dictionary. -/
def bpLookup (d : List (String × List Nat)) (k : String) : List Nat :=
  ((d.find? (fun p => p.1 = k)).map Prod.snd).getD []

/-- Membership of a number in a list of inclusive intervals. -/
def inRuns (rs : List (Nat × Nat)) (n : Nat) : Prop :=
  ∃ se ∈ rs, se.1 ≤ n ∧ n ≤ se.2

/-- No trailing whitespace. -/
def noTrailWs (l : List Char) : Prop :=
  ∀ c, l.getLast? = some c → pyIsSpace c = false

/-- Transport keys fit to appear in rendered tokens: no slash and no
trailing whitespace.  Every key created by classifyTokens is such. -/
def GoodKey (pr : String) : Prop := '/' ∉ pr.data ∧ noTrailWs pr.data

/-- Stripped passthrough tokens of an input list: nonempty after
stripping and not well-formed. -/
def passList (ts : List String) : List String :=
  (ts.map pyStrip).filter (fun t => !(t = "") && !isWfTok t)

/-- Canonical shape of a compress_ports output list: sorted by the sort
key; every token stripped and nonempty; every well-formed token is the
canonical rendering of a single port over a good transport key; the
well-formed tokens are pairwise distinct; and two distinct single
ports of the same transport are never adjacent or equal. -/
def Canonical (z : List String) : Prop :=
  z.Pairwise (fun a b => tokenLeB a b = true) ∧
  (∀ t ∈ z, pyStrip t = t ∧ t ≠ "") ∧
  (∀ t ∈ z, isWfTok t = true → ∃ pr n, GoodKey pr ∧ t = render1 pr n) ∧
  (z.filter isWfTok).Nodup ∧
  (∀ pr n m, GoodKey pr → render1 pr n ∈ z → render1 pr m ∈ z → n ≠ m →
    n + 2 ≤ m ∨ m + 2 ≤ n)

/-! ### Lemmas: whitespace stripping -/

theorem dropWhile_eq_self_of_head {p : Char → Bool} {l : List Char}
    (h : ∀ c, l.head? = some c → p c = false) : l.dropWhile p = l := by
  cases l with
  | nil => rfl
  | cons a t => simp [List.dropWhile_cons, h a rfl]

theorem head?_dropWhile {p : Char → Bool} {l : List Char} {c : Char}
    (h : (l.dropWhile p).head? = some c) : p c = false := by
  induction l with
  | nil => simp [List.dropWhile] at h
  | cons a t ih =>
    by_cases hp : p a
    · rw [List.dropWhile_cons, if_pos hp] at h
      exact ih h
    · rw [List.dropWhile_cons, if_neg hp] at h
      simp only [List.head?_cons, Option.some.injEq] at h
      subst h
      exact Bool.eq_false_iff.mpr hp

theorem getLast?_dropWhile {p : Char → Bool} {l : List Char}
    (h : l.dropWhile p ≠ []) : (l.dropWhile p).getLast? = l.getLast? := by
  induction l with
  | nil => simp [List.dropWhile] at h
  | cons a t ih =>
    by_cases hp : p a
    · rw [List.dropWhile_cons] at h ⊢
      simp only [hp, if_true] at h ⊢
      have ht : t ≠ [] := by
        intro he; subst he; simp [List.dropWhile] at h
      rw [ih h, List.getLast?_cons]
      cases hg : t.getLast? with
      | none => exact absurd (List.getLast?_eq_none_iff.mp hg) ht
      | some c => rfl
    · rw [List.dropWhile_cons]
      simp only [hp, if_false]
      rw [if_neg (by simp)]

theorem stripL_eq_self {l : List Char}
    (hh : ∀ c, l.head? = some c → pyIsSpace c = false)
    (hl : ∀ c, l.getLast? = some c → pyIsSpace c = false) : stripL l = l := by
  unfold stripL
  rw [dropWhile_eq_self_of_head hh]
  rw [dropWhile_eq_self_of_head (by simpa using hl)]
  exact l.reverse_reverse

theorem stripL_last {l : List Char} {c : Char}
    (h : (stripL l).getLast? = some c) : pyIsSpace c = false := by
  unfold stripL at h
  rw [List.getLast?_reverse] at h
  exact head?_dropWhile h

theorem stripL_head {l : List Char} {c : Char}
    (h : (stripL l).head? = some c) : pyIsSpace c = false := by
  unfold stripL at h
  rw [List.head?_reverse] at h
  have hne : (l.dropWhile pyIsSpace).reverse.dropWhile pyIsSpace ≠ [] := by
    intro he; rw [he] at h; simp at h
  rw [getLast?_dropWhile hne, List.getLast?_reverse] at h
  exact head?_dropWhile h

theorem stripL_idem (l : List Char) : stripL (stripL l) = stripL l :=
  stripL_eq_self (fun _ h => stripL_head h) (fun _ h => stripL_last h)

theorem pyStrip_idem (s : String) : pyStrip (pyStrip s) = pyStrip s := by
  unfold pyStrip
  exact congrArg String.mk (stripL_idem s.data)

theorem pyStrip_data (s : String) : (pyStrip s).data = stripL s.data := rfl

/-! ### Lemmas: decimal digits -/

theorem digitChar_toNat {d : Nat} (h : d < 10) : (digitChar d).toNat = 48 + d := by
  interval_cases d <;> rfl

theorem isDigitChar_digitChar (d : Nat) : isDigitChar (digitChar d) = true := by
  unfold digitChar
  split <;> rfl

theorem natDigitsLEAux_irrel (n : Nat) : ∀ f g, n ≤ f → n ≤ g →
    natDigitsLEAux f n = natDigitsLEAux g n := by
  induction n using Nat.strong_induction_on with
  | _ n ih =>
    intro f g hf hg
    by_cases h : n = 0
    · subst h
      cases f <;> cases g <;> simp [natDigitsLEAux]
    · obtain ⟨f', rfl⟩ : ∃ f', f = f' + 1 := ⟨f - 1, by omega⟩
      obtain ⟨g', rfl⟩ : ∃ g', g = g' + 1 := ⟨g - 1, by omega⟩
      have hdiv : n / 10 < n := Nat.div_lt_self (Nat.pos_of_ne_zero h) (by omega)
      simp only [natDigitsLEAux, if_neg h]
      exact congrArg _ (ih (n / 10) hdiv f' g' (by omega) (by omega))

theorem natDigitsLE_eq (n : Nat) :
    natDigitsLE n = if n = 0 then [] else digitChar (n % 10) :: natDigitsLE (n / 10) := by
  by_cases h : n = 0
  · subst h; rfl
  · obtain ⟨m, rfl⟩ : ∃ m, n = m + 1 := ⟨n - 1, by omega⟩
    have hdiv : (m + 1) / 10 < m + 1 := Nat.div_lt_self (by omega) (by omega)
    rw [if_neg h]
    show natDigitsLEAux (m + 1) (m + 1) = _
    simp only [natDigitsLEAux, if_neg h]
    exact congrArg _ (natDigitsLEAux_irrel ((m + 1) / 10) m ((m + 1) / 10) (by omega) le_rfl)

theorem natDigitsLE_digits (n : Nat) : ∀ c ∈ natDigitsLE n, isDigitChar c = true := by
  induction n using Nat.strong_induction_on with
  | _ n ih =>
    rw [natDigitsLE_eq]
    split
    · simp
    · rename_i h
      intro c hc
      rcases List.mem_cons.mp hc with h1 | h2
      · subst h1; exact isDigitChar_digitChar _
      · exact ih (n / 10) (Nat.div_lt_self (Nat.pos_of_ne_zero h) (by omega)) c h2

theorem natDigitsLE_ne_nil {n : Nat} (h : n ≠ 0) : natDigitsLE n ≠ [] := by
  rw [natDigitsLE_eq]
  simp [h]

theorem digitsToNat_append_one (xs : List Char) (c : Char) :
    digitsToNat (xs ++ [c]) = digitsToNat xs * 10 + (c.toNat - 48) := by
  unfold digitsToNat
  rw [List.foldl_append]
  rfl

theorem digitsToNat_rev_natDigitsLE (n : Nat) : digitsToNat (natDigitsLE n).reverse = n := by
  induction n using Nat.strong_induction_on with
  | _ n ih =>
    rw [natDigitsLE_eq]
    split
    · rename_i h; subst h; rfl
    · rename_i h
      rw [List.reverse_cons, digitsToNat_append_one]
      rw [ih (n / 10) (Nat.div_lt_self (Nat.pos_of_ne_zero h) (by omega))]
      rw [digitChar_toNat (Nat.mod_lt n (by omega))]
      omega

theorem digitsToNat_natReprL (n : Nat) : digitsToNat (natReprL n) = n := by
  unfold natReprL
  split
  · rename_i h; subst h; rfl
  · exact digitsToNat_rev_natDigitsLE n

theorem natReprL_digits (n : Nat) : ∀ c ∈ natReprL n, isDigitChar c = true := by
  unfold natReprL
  split
  · intro c hc; simp at hc; subst hc; rfl
  · intro c hc
    exact natDigitsLE_digits n c (List.mem_reverse.mp hc)

theorem natReprL_ne_nil (n : Nat) : natReprL n ≠ [] := by
  unfold natReprL
  split
  · simp
  · rename_i h
    simpa using natDigitsLE_ne_nil h

theorem isDigitsL_natReprL (n : Nat) : isDigitsL (natReprL n) = true := by
  unfold isDigitsL
  rw [Bool.and_eq_true]
  constructor
  · simpa [List.isEmpty_iff] using natReprL_ne_nil n
  · rw [List.all_eq_true]
    exact natReprL_digits n

theorem natReprL_inj {m n : Nat} (h : natReprL m = natReprL n) : m = n := by
  have := digitsToNat_natReprL m
  rw [h, digitsToNat_natReprL] at this
  omega

theorem natRepr_inj {m n : Nat} (h : natRepr m = natRepr n) : m = n :=
  natReprL_inj (congrArg String.data h)

theorem isDigitChar_not_space {c : Char} (h : isDigitChar c = true) : pyIsSpace c = false := by
  simp only [isDigitChar, Bool.and_eq_true, decide_eq_true_eq] at h
  unfold pyIsSpace
  simp only [Bool.or_eq_false_iff, decide_eq_false_iff_not]
  refine ⟨⟨⟨⟨⟨?_, ?_⟩, ?_⟩, ?_⟩, ?_⟩, ?_⟩ <;>
    (intro he; subst he; revert h; decide)

theorem isDigitChar_ne_slash {c : Char} (h : isDigitChar c = true) : c ≠ '/' := by
  intro he; subst he; revert h; decide

theorem isDigitChar_ne_dash {c : Char} (h : isDigitChar c = true) : c ≠ '-' := by
  intro he; subst he; revert h; decide

theorem isDigitsL_all {l : List Char} (h : isDigitsL l = true) :
    ∀ c ∈ l, isDigitChar c = true := by
  unfold isDigitsL at h
  rw [Bool.and_eq_true, List.all_eq_true] at h
  exact h.2

theorem isDigitsL_no_slash {l : List Char} (h : isDigitsL l = true) : '/' ∉ l := by
  intro hm
  exact isDigitChar_ne_slash (isDigitsL_all h _ hm) rfl

theorem isDigitsL_no_dash {l : List Char} (h : isDigitsL l = true) : '-' ∉ l := by
  intro hm
  exact isDigitChar_ne_dash (isDigitsL_all h _ hm) rfl

theorem natReprL_no_slash (n : Nat) : '/' ∉ natReprL n :=
  isDigitsL_no_slash (isDigitsL_natReprL n)

theorem natReprL_no_dash (n : Nat) : '-' ∉ natReprL n :=
  isDigitsL_no_dash (isDigitsL_natReprL n)

/-! ### Lemmas: splitting -/

theorem splitLast_eq_none {c : Char} {l : List Char} :
    splitLast c l = none ↔ c ∉ l := by
  induction l with
  | nil => simp [splitLast]
  | cons a t ih =>
    rw [splitLast]
    cases hs : splitLast c t with
    | some p =>
      simp only [List.mem_cons]
      constructor
      · intro h; simp at h
      · intro h
        exfalso
        apply h
        right
        by_contra hnot
        rw [← ih] at hnot
        rw [hs] at hnot
        simp at hnot
    | none =>
      by_cases hc : a = c
      · subst hc
        simp
      · rw [if_neg hc]
        simp [Ne.symm hc, ih.mp hs]

theorem splitLast_append_last (c : Char) (xs ys : List Char) (h : c ∉ ys) :
    splitLast c (xs ++ c :: ys) = some (xs, ys) := by
  induction xs with
  | nil =>
    rw [List.nil_append, splitLast, splitLast_eq_none.mpr h, if_pos rfl]
  | cons a t ih =>
    rw [List.cons_append, splitLast, ih]

theorem splitLast_parts {c : Char} {l pp pr : List Char}
    (h : splitLast c l = some (pp, pr)) : l = pp ++ c :: pr ∧ c ∉ pr := by
  induction l generalizing pp pr with
  | nil => simp [splitLast] at h
  | cons a t ih =>
    rw [splitLast] at h
    cases hs : splitLast c t with
    | some p =>
      rw [hs] at h
      simp only [Option.some.injEq, Prod.mk.injEq] at h
      obtain ⟨h1, h2⟩ := h
      subst h1
      have hs' : splitLast c t = some (p.1, pr) := by rw [hs, ← h2]
      obtain ⟨ht, hn⟩ := ih hs'
      constructor
      · rw [List.cons_append, ← ht]
      · exact hn
    | none =>
      rw [hs] at h
      by_cases hc : a = c
      · rw [if_pos hc] at h
        simp only [Option.some.injEq, Prod.mk.injEq] at h
        obtain ⟨h1, h2⟩ := h
        subst h1; subst h2; subst hc
        exact ⟨rfl, splitLast_eq_none.mp hs⟩
      · rw [if_neg hc] at h
        simp at h

theorem splitFirst_eq_none {c : Char} {l : List Char} :
    splitFirst c l = none ↔ c ∉ l := by
  induction l with
  | nil => simp [splitFirst]
  | cons a t ih =>
    rw [splitFirst]
    by_cases hc : a = c
    · subst hc; simp
    · rw [if_neg hc]
      cases hs : splitFirst c t with
      | some p => simp [Ne.symm hc, ← ih, hs]
      | none => simp [Ne.symm hc, ← ih, hs]

theorem splitFirst_append (c : Char) (xs ys : List Char) (h : c ∉ xs) :
    splitFirst c (xs ++ c :: ys) = some (xs, ys) := by
  induction xs with
  | nil => rw [List.nil_append, splitFirst, if_pos rfl]
  | cons a t ih =>
    rw [List.cons_append, splitFirst]
    have ha : ¬a = c := by intro he; exact h (by simp [he])
    rw [if_neg ha, ih (fun hm => h (List.mem_cons_of_mem a hm))]
    rfl

theorem splitFirst_parts {c : Char} {l pp rest : List Char}
    (h : splitFirst c l = some (pp, rest)) : l = pp ++ c :: rest ∧ c ∉ pp := by
  induction l generalizing pp rest with
  | nil => simp [splitFirst] at h
  | cons a t ih =>
    rw [splitFirst] at h
    by_cases hc : a = c
    · rw [if_pos hc] at h
      simp only [Option.some.injEq, Prod.mk.injEq] at h
      obtain ⟨h1, h2⟩ := h
      subst h1; subst h2; subst hc
      exact ⟨rfl, by simp⟩
    · rw [if_neg hc] at h
      cases hs : splitFirst c t with
      | none => rw [hs] at h; simp at h
      | some p =>
        rw [hs] at h
        simp only [Option.map_some', Option.some.injEq, Prod.mk.injEq] at h
        obtain ⟨h1, h2⟩ := h
        subst h1
        have hs' : splitFirst c t = some (p.1, rest) := by rw [hs, ← h2]
        obtain ⟨ht, hn⟩ := ih hs'
        constructor
        · rw [List.cons_append, ← ht]
        · intro hm
          rcases List.mem_cons.mp hm with h1 | h2
          · exact hc h1.symm
          · exact hn h2

/-! ### Lemmas: rendered tokens -/

theorem data_render1 (pr : String) (n : Nat) :
    (render1 pr n).data = natReprL n ++ '/' :: pr.data := by
  show (natReprL n ++ ['/']) ++ pr.data = natReprL n ++ '/' :: pr.data
  simp

theorem splitLast_data_render1 (pr : String) (n : Nat) (h : '/' ∉ pr.data) :
    splitLast '/' (render1 pr n).data = some (natReprL n, pr.data) := by
  rw [data_render1]
  exact splitLast_append_last _ _ _ h

theorem isWfTok_render1 (pr : String) (n : Nat) (h : '/' ∉ pr.data) :
    isWfTok (render1 pr n) = true := by
  unfold isWfTok
  rw [splitLast_data_render1 pr n h]
  exact isDigitsL_natReprL n

theorem string_eq_of_data {a b : String} (h : a.data = b.data) : a = b := by
  cases a; cases b; exact congrArg String.mk h

theorem render1_inj {pr pq : String} {n m : Nat} (h : '/' ∉ pr.data) (h' : '/' ∉ pq.data)
    (he : render1 pr n = render1 pq m) : pr = pq ∧ n = m := by
  have h1 := splitLast_data_render1 pr n h
  have h2 := splitLast_data_render1 pq m h'
  rw [← he] at h2
  rw [h1] at h2
  simp only [Option.some.injEq, Prod.mk.injEq] at h2
  obtain ⟨ha, hb⟩ := h2
  exact ⟨string_eq_of_data hb, natReprL_inj ha⟩

theorem renderInterval_single (pr : String) (n : Nat) :
    renderInterval pr (n, n) = render1 pr n := by
  unfold renderInterval render1
  rw [if_pos rfl]

theorem data_renderRange (pr : String) (s e : Nat) (hne : ¬s = e) :
    (renderInterval pr (s, e)).data = (natReprL s ++ '-' :: natReprL e) ++ '/' :: pr.data := by
  unfold renderInterval
  rw [if_neg hne]
  show (((natReprL s ++ ['-']) ++ natReprL e) ++ ['/']) ++ pr.data = _
  simp

theorem renderRange_not_wf (pr : String) (s e : Nat) (hne : ¬s = e) (h : '/' ∉ pr.data) :
    isWfTok (renderInterval pr (s, e)) = false := by
  unfold isWfTok
  rw [data_renderRange pr s e hne, splitLast_append_last _ _ _ h]
  simp only []
  rw [Bool.eq_false_iff]
  intro hd
  exact isDigitsL_no_dash hd (by simp)

theorem render1_ne_renderRange {pr pq : String} {n s e : Nat} (h : '/' ∉ pr.data)
    (h' : '/' ∉ pq.data) (hne : ¬s = e) : render1 pr n ≠ renderInterval pq (s, e) := by
  intro he
  have h1 := isWfTok_render1 pr n h
  rw [he, renderRange_not_wf pq s e hne h'] at h1
  exact Bool.false_ne_true h1

theorem stripL_token_shape {ds : List Char} {pr : String} (hds : ds ≠ [])
    (hd : ∀ c ∈ ds, isDigitChar c = true ∨ c = '-') (ht : noTrailWs pr.data) :
    stripL (ds ++ '/' :: pr.data) = ds ++ '/' :: pr.data := by
  apply stripL_eq_self
  · intro c hc
    rw [List.head?_append] at hc
    cases hh : ds.head? with
    | none => exact absurd (List.head?_eq_none_iff.mp hh) hds
    | some c0 =>
      rw [hh] at hc
      simp only [Option.or_some, Option.some.injEq] at hc
      subst hc
      rcases hd c0 (List.mem_of_mem_head? (by rw [hh]; exact rfl)) with hdig | hdash
      · exact isDigitChar_not_space hdig
      · subst hdash; rfl
  · intro c hc
    rw [List.getLast?_append] at hc
    cases hp : pr.data with
    | nil =>
      rw [hp] at hc
      simp only [List.getLast?_singleton] at hc
      cases hg : ds.getLast? with
      | none => rw [hg] at hc; simp at hc; subst hc; rfl
      | some c0 => rw [hg] at hc; simp at hc; subst hc; rfl
    | cons b bs =>
      have hne : pr.data ≠ [] := by rw [hp]; simp
      have : ('/' :: pr.data).getLast? = pr.data.getLast? := by
        rw [List.getLast?_cons]
        cases hg : pr.data.getLast? with
        | none => exact absurd (List.getLast?_eq_none_iff.mp hg) hne
        | some c0 => rfl
      rw [this] at hc
      cases hg : pr.data.getLast? with
      | none => exact absurd (List.getLast?_eq_none_iff.mp hg) hne
      | some c0 =>
        rw [hg] at hc
        simp only [Option.or_some, Option.some.injEq] at hc
        subst hc
        exact ht c0 hg

theorem pyStrip_renderInterval (pr : String) (gk : GoodKey pr) (se : Nat × Nat) :
    pyStrip (renderInterval pr se) = renderInterval pr se := by
  obtain ⟨c1, c2⟩ := se
  apply string_eq_of_data
  rw [pyStrip_data]
  by_cases he : c1 = c2
  · subst he
    rw [renderInterval_single, data_render1]
    exact stripL_token_shape (natReprL_ne_nil c1)
      (fun c hc => Or.inl (natReprL_digits c1 c hc)) gk.2
  · rw [data_renderRange pr c1 c2 he]
    apply stripL_token_shape
    · simp [natReprL_ne_nil c1]
    · intro c hc
      simp only [List.mem_append, List.mem_cons] at hc
      rcases hc with h1 | h2 | h3
      · exact Or.inl (natReprL_digits c1 c h1)
      · exact Or.inr h2
      · exact Or.inl (natReprL_digits c2 c h3)
    · exact gk.2

theorem renderInterval_ne_empty (pr : String) (se : Nat × Nat) :
    renderInterval pr se ≠ "" := by
  intro he
  have hd := congrArg String.data he
  by_cases hc : se.1 = se.2
  · obtain ⟨c1, c2⟩ := se
    simp only at hc
    subst hc
    rw [renderInterval_single, data_render1] at hd
    have : natReprL c1 = [] ∧ ('/' :: pr.data) = [] := by
      constructor
      · cases hx : natReprL c1 with
        | nil => rfl
        | cons a t => rw [hx] at hd; simp at hd
      · cases hx : natReprL c1 with
        | nil => rw [hx] at hd; simp at hd
        | cons a t => rw [hx] at hd; simp at hd
    exact (natReprL_ne_nil c1) this.1
  · obtain ⟨c1, c2⟩ := se
    simp only at hc
    rw [data_renderRange pr c1 c2 hc] at hd
    cases hx : natReprL c1 with
    | nil => exact (natReprL_ne_nil c1) hx
    | cons a t => rw [hx] at hd; simp at hd

/-! ### Lemmas: generic list facts -/

theorem pairwise_mem_rel {α : Type} {R : α → α → Prop} {l : List α}
    (hp : List.Pairwise R l) {a b : α} (ha : a ∈ l) (hb : b ∈ l) :
    a = b ∨ R a b ∨ R b a := by
  induction l with
  | nil => simp at ha
  | cons x t ih =>
    rcases List.pairwise_cons.mp hp with ⟨hx, ht⟩
    rcases List.mem_cons.mp ha with h1 | h2 <;> rcases List.mem_cons.mp hb with g1 | g2
    · left; rw [h1, g1]
    · right; left; subst h1; exact hx b g2
    · right; right; subst g1; exact hx a h2
    · exact ih ht h2 g2

theorem chain'_imp_mem {α : Type} {R S : α → α → Prop} :
    ∀ {l : List α}, List.Chain' R l → (∀ a ∈ l, ∀ b ∈ l, R a b → S a b) → List.Chain' S l
  | [], _, _ => List.chain'_nil
  | [_], _, _ => by simp
  | x :: y :: u, hc, h => by
    rw [List.chain'_cons] at hc ⊢
    refine ⟨h x (by simp) y (by simp) hc.1, ?_⟩
    exact chain'_imp_mem hc.2
      (fun a ha b hb hr => h a (List.mem_cons_of_mem _ ha) b (List.mem_cons_of_mem _ hb) hr)

theorem gap_head_all : ∀ {tl : List (Nat × Nat)} {a : Nat × Nat},
    (∀ se ∈ tl, se.1 ≤ se.2) →
    List.Chain' (fun x y => x.2 + 2 ≤ y.1) (a :: tl) → ∀ b ∈ tl, a.2 + 2 ≤ b.1
  | [], _, _, _, _, hb => absurd hb (by simp)
  | c :: tl', a, hle, hc, b, hb => by
    rw [List.chain'_cons] at hc
    rcases List.mem_cons.mp hb with h1 | h2
    · subst h1; exact hc.1
    · have hrec := gap_head_all (fun se hse => hle se (List.mem_cons_of_mem _ hse)) hc.2 b h2
      have hcle := hle c (by simp)
      have hc1 := hc.1
      omega

theorem gap_chain_pairwise :
    ∀ {rs : List (Nat × Nat)}, (∀ se ∈ rs, se.1 ≤ se.2) →
      List.Chain' (fun x y => x.2 + 2 ≤ y.1) rs →
      List.Pairwise (fun x y => x.2 + 2 ≤ y.1) rs
  | [], _, _ => List.Pairwise.nil
  | a :: tl, hle, hc => by
    rw [List.pairwise_cons]
    constructor
    · exact gap_head_all (fun se hse => hle se (List.mem_cons_of_mem _ hse)) hc
    · exact gap_chain_pairwise (fun se hse => hle se (List.mem_cons_of_mem _ hse))
        ((List.chain'_cons'.mp hc).2)

/-! ### Lemmas: maximal runs -/

theorem inRuns_cons {se : Nat × Nat} {rs : List (Nat × Nat)} {n : Nat} :
    inRuns (se :: rs) n ↔ (se.1 ≤ n ∧ n ≤ se.2) ∨ inRuns rs n := by
  simp [inRuns]

theorem runsAux_first (start cur : Nat) (l : List Nat) :
    ∃ e tl, runsAux start cur l = (start, e) :: tl ∧ cur ≤ e := by
  induction l generalizing start cur with
  | nil => exact ⟨cur, [], rfl, Nat.le_refl _⟩
  | cons p rest ih =>
    rw [runsAux]
    by_cases hp : p = cur + 1
    · rw [if_pos hp]
      obtain ⟨e, tl, heq, hle⟩ := ih start p
      exact ⟨e, tl, heq, by omega⟩
    · rw [if_neg hp]
      exact ⟨cur, runsAux p p rest, rfl, Nat.le_refl _⟩

theorem runsAux_le (start cur : Nat) (l : List Nat) (h : start ≤ cur)
    (hc : List.Chain' (fun a b => a < b) (cur :: l)) :
    ∀ se ∈ runsAux start cur l, se.1 ≤ se.2 := by
  induction l generalizing start cur with
  | nil =>
    intro se hse
    simp only [runsAux, List.mem_singleton] at hse
    subst hse; exact h
  | cons p rest ih =>
    intro se hse
    rw [runsAux] at hse
    have hlt : cur < p := (List.chain'_cons.mp hc).1
    have hc' := (List.chain'_cons.mp hc).2
    by_cases hp : p = cur + 1
    · rw [if_pos hp] at hse
      exact ih start p (by omega) hc' se hse
    · rw [if_neg hp] at hse
      rcases List.mem_cons.mp hse with h1 | h2
      · subst h1; exact h
      · exact ih p p (Nat.le_refl p) hc' se h2

theorem runsAux_chain (start cur : Nat) (l : List Nat) (h : start ≤ cur)
    (hc : List.Chain' (fun a b => a < b) (cur :: l)) :
    List.Chain' (fun x y => x.2 + 2 ≤ y.1) (runsAux start cur l) := by
  induction l generalizing start cur with
  | nil => simp [runsAux]
  | cons p rest ih =>
    rw [runsAux]
    have hlt : cur < p := (List.chain'_cons.mp hc).1
    have hc' := (List.chain'_cons.mp hc).2
    by_cases hp : p = cur + 1
    · rw [if_pos hp]
      exact ih start p (by omega) hc'
    · rw [if_neg hp]
      obtain ⟨e, tl, heq, hle⟩ := runsAux_first p p rest
      rw [heq, List.chain'_cons]
      constructor
      · simp only []
        omega
      · rw [← heq]
        exact ih p p (Nat.le_refl p) hc'

theorem runsAux_mem (start cur : Nat) (l : List Nat) (h : start ≤ cur)
    (hc : List.Chain' (fun a b => a < b) (cur :: l)) (n : Nat) :
    inRuns (runsAux start cur l) n ↔ (start ≤ n ∧ n ≤ cur) ∨ n ∈ l := by
  induction l generalizing start cur with
  | nil => simp [runsAux, inRuns]
  | cons p rest ih =>
    rw [runsAux]
    have hlt : cur < p := (List.chain'_cons.mp hc).1
    have hc' := (List.chain'_cons.mp hc).2
    by_cases hp : p = cur + 1
    · rw [if_pos hp]
      rw [ih start p (by omega) hc']
      subst hp
      constructor
      · rintro (⟨h1, h2⟩ | h3)
        · by_cases hn : n ≤ cur
          · exact Or.inl ⟨h1, hn⟩
          · refine Or.inr (List.mem_cons.mpr (Or.inl ?_))
            omega
        · exact Or.inr (List.mem_cons_of_mem _ h3)
      · rintro (⟨h1, h2⟩ | h3)
        · exact Or.inl ⟨h1, by omega⟩
        · rcases List.mem_cons.mp h3 with h4 | h5
          · subst h4; exact Or.inl ⟨by omega, by omega⟩
          · exact Or.inr h5
    · rw [if_neg hp]
      rw [inRuns_cons, ih p p (Nat.le_refl p) hc']
      constructor
      · rintro (⟨h1, h2⟩ | ⟨h3, h4⟩ | h5)
        · exact Or.inl ⟨h1, h2⟩
        · refine Or.inr (List.mem_cons.mpr (Or.inl ?_))
          omega
        · exact Or.inr (List.mem_cons_of_mem _ h5)
      · rintro (⟨h1, h2⟩ | h3)
        · exact Or.inl ⟨h1, h2⟩
        · rcases List.mem_cons.mp h3 with h4 | h5
          · subst h4
            exact Or.inr (Or.inl ⟨Nat.le_refl _, Nat.le_refl _⟩)
          · exact Or.inr (Or.inr h5)

theorem runs_mem {l : List Nat} (hc : List.Chain' (fun a b => a < b) l) (n : Nat) :
    inRuns (runs l) n ↔ n ∈ l := by
  cases l with
  | nil => simp [runs, inRuns]
  | cons p rest =>
    rw [runs, runsAux_mem p p rest (Nat.le_refl p) hc]
    constructor
    · rintro (⟨h1, h2⟩ | h3)
      · have : n = p := by omega
        subst this; simp
      · exact List.mem_cons_of_mem _ h3
    · intro hm
      rcases List.mem_cons.mp hm with h1 | h2
      · subst h1; exact Or.inl ⟨Nat.le_refl _, Nat.le_refl _⟩
      · exact Or.inr h2

theorem runs_le {l : List Nat} (hc : List.Chain' (fun a b => a < b) l) :
    ∀ se ∈ runs l, se.1 ≤ se.2 := by
  cases l with
  | nil => simp [runs]
  | cons p rest => exact runsAux_le p p rest (Nat.le_refl p) hc

theorem runs_chain {l : List Nat} (hc : List.Chain' (fun a b => a < b) l) :
    List.Chain' (fun x y => x.2 + 2 ≤ y.1) (runs l) := by
  cases l with
  | nil => simp [runs]
  | cons p rest => exact runsAux_chain p p rest (Nat.le_refl p) hc

theorem runs_pairwise_gap {l : List Nat} (hc : List.Chain' (fun a b => a < b) l) :
    List.Pairwise (fun x y => x.2 + 2 ≤ y.1) (runs l) :=
  gap_chain_pairwise (runs_le hc) (runs_chain hc)

theorem runsAux_spread (start cur : Nat) (l : List Nat)
    (hc : List.Chain' (fun a b => a + 2 ≤ b) (cur :: l)) :
    runsAux start cur l = (start, cur) :: l.map (fun n => (n, n)) := by
  induction l generalizing start cur with
  | nil => simp [runsAux]
  | cons p rest ih =>
    rw [runsAux]
    have hg : cur + 2 ≤ p := (List.chain'_cons.mp hc).1
    have hc' := (List.chain'_cons.mp hc).2
    rw [if_neg (by omega)]
    rw [ih p p hc']
    simp

theorem runs_spread {l : List Nat} (hc : List.Chain' (fun a b => a + 2 ≤ b) l) :
    runs l = l.map (fun n => (n, n)) := by
  cases l with
  | nil => simp [runs]
  | cons p rest =>
    rw [runs, runsAux_spread p p rest hc]
    simp

theorem runsAux_consec (start : Nat) : ∀ (m cur : Nat),
    runsAux start cur (List.range' (cur + 1) m) = [(start, cur + m)]
  | 0, cur => by simp [runsAux, List.range']
  | m + 1, cur => by
    rw [List.range'_succ, runsAux, if_pos rfl, runsAux_consec start m (cur + 1)]
    congr 1
    congr 1
    omega

theorem runs_consec (a m : Nat) : runs (List.range' a (m + 1)) = [(a, a + m)] := by
  rw [List.range'_succ, runs, runsAux_consec a m a]

/-! ### Lemmas: sortedDedup -/

theorem mem_sortedDedup {l : List Nat} {n : Nat} : n ∈ sortedDedup l ↔ n ∈ l := by
  unfold sortedDedup
  rw [List.mem_insertionSort, List.mem_dedup]

theorem sortedDedup_sorted (l : List Nat) :
    List.Pairwise (fun a b : Nat => a ≤ b) (sortedDedup l) := by
  unfold sortedDedup
  haveI : IsTotal Nat (fun a b : Nat => a ≤ b) := ⟨fun a b => Nat.le_total a b⟩
  haveI : IsTrans Nat (fun a b : Nat => a ≤ b) := ⟨fun a b c => Nat.le_trans⟩
  exact List.sorted_insertionSort (fun a b : Nat => a ≤ b) l.dedup

theorem sortedDedup_nodup (l : List Nat) : (sortedDedup l).Nodup := by
  unfold sortedDedup
  exact ((List.perm_insertionSort _ l.dedup).symm).nodup (List.nodup_dedup l)

theorem sortedDedup_chain_lt (l : List Nat) :
    List.Chain' (fun a b : Nat => a < b) (sortedDedup l) := by
  apply List.Pairwise.chain'
  have h1 := sortedDedup_sorted l
  have h2 := sortedDedup_nodup l
  exact (List.Pairwise.and h1 h2).imp (fun h => Nat.lt_of_le_of_ne h.1 h.2)

theorem sortedDedup_congr {l₁ l₂ : List Nat} (h : ∀ n, n ∈ l₁ ↔ n ∈ l₂) :
    sortedDedup l₁ = sortedDedup l₂ := by
  have hperm : List.Perm (sortedDedup l₁) (sortedDedup l₂) := by
    rw [List.perm_ext_iff_of_nodup (sortedDedup_nodup l₁) (sortedDedup_nodup l₂)]
    intro n
    rw [mem_sortedDedup, mem_sortedDedup]
    exact h n
  exact List.eq_of_perm_of_sorted hperm (sortedDedup_sorted l₁) (sortedDedup_sorted l₂)

theorem sortedDedup_eq_self {l : List Nat} (hc : List.Chain' (fun a b : Nat => a < b) l) :
    sortedDedup l = l := by
  unfold sortedDedup
  rw [List.dedup_eq_self.mpr ((List.chain'_iff_pairwise.mp hc).imp Nat.ne_of_lt)]
  apply List.Sorted.insertionSort_eq
  exact (List.chain'_iff_pairwise.mp hc).imp (fun h => Nat.le_of_lt h)

/-! ### Lemmas: the compress_ports sort key order -/

theorem charsLtB_irrefl : ∀ l : List Char, charsLtB l l = false
  | [] => rfl
  | a :: as => by
    unfold charsLtB
    rw [if_neg (lt_irrefl a.toNat), if_neg (lt_irrefl a.toNat)]
    exact charsLtB_irrefl as

theorem charsLtB_asymm : ∀ {l₁ l₂ : List Char},
    charsLtB l₁ l₂ = true → charsLtB l₂ l₁ = false
  | [], [], h => by cases h
  | _ :: _, [], h => by cases h
  | [], _ :: _, _ => rfl
  | a :: as, b :: bs, h => by
    unfold charsLtB at h ⊢
    by_cases h1 : a.toNat < b.toNat
    · rw [if_neg (by omega), if_pos h1]
    · rw [if_neg h1] at h
      by_cases h2 : b.toNat < a.toNat
      · rw [if_pos h2] at h; cases h
      · rw [if_neg h2] at h
        rw [if_neg h2, if_neg h1]
        exact charsLtB_asymm h

theorem charsLtB_trans : ∀ {l₁ l₂ l₃ : List Char},
    charsLtB l₁ l₂ = true → charsLtB l₂ l₃ = true → charsLtB l₁ l₃ = true
  | [], [], _, h, _ => by cases h
  | _ :: _, [], _, h, _ => by cases h
  | _, _ :: _, [], _, h => by cases h
  | [], _ :: _, _ :: _, _, _ => rfl
  | a :: as, b :: bs, c :: cs, h1, h2 => by
    unfold charsLtB at h1 h2 ⊢
    by_cases hab : a.toNat < b.toNat <;> by_cases hbc : b.toNat < c.toNat
    · rw [if_pos (by omega)]
    · rw [if_neg hbc] at h2
      by_cases hcb : c.toNat < b.toNat
      · rw [if_pos hcb] at h2; cases h2
      · have : b.toNat = c.toNat := by omega
        rw [if_pos (by omega)]
    · rw [if_neg hab] at h1
      by_cases hba : b.toNat < a.toNat
      · rw [if_pos hba] at h1; cases h1
      · rw [if_pos (by omega)]
    · rw [if_neg hab] at h1
      rw [if_neg hbc] at h2
      by_cases hba : b.toNat < a.toNat
      · rw [if_pos hba] at h1; cases h1
      · by_cases hcb : c.toNat < b.toNat
        · rw [if_pos hcb] at h2; cases h2
        · rw [if_neg hba] at h1
          rw [if_neg hcb] at h2
          rw [if_neg (by omega), if_neg (by omega)]
          exact charsLtB_trans h1 h2

theorem charsLtB_eq_of_not : ∀ {l₁ l₂ : List Char},
    charsLtB l₁ l₂ = false → charsLtB l₂ l₁ = false → l₁ = l₂
  | [], [], _, _ => rfl
  | [], _ :: _, h, _ => by cases h
  | _ :: _, [], _, h => by cases h
  | a :: as, b :: bs, h1, h2 => by
    unfold charsLtB at h1 h2
    by_cases hab : a.toNat < b.toNat
    · rw [if_pos hab] at h1; cases h1
    · by_cases hba : b.toNat < a.toNat
      · rw [if_pos hba] at h2; cases h2
      · rw [if_neg hab, if_neg hba] at h1
        rw [if_neg hba, if_neg hab] at h2
        have hc : a = b := by
          have hn : a.toNat = b.toNat := by omega
          have hv : a.val = b.val := UInt32.toNat.inj hn
          exact Char.eq_of_val_eq hv
        rw [hc, charsLtB_eq_of_not h1 h2]

theorem strLtB_irrefl (s : String) : strLtB s s = false := charsLtB_irrefl s.data

theorem strLtB_asymm {s t : String} (h : strLtB s t = true) : strLtB t s = false :=
  charsLtB_asymm h

theorem strLtB_trans {s t u : String} (h1 : strLtB s t = true)
    (h2 : strLtB t u = true) : strLtB s u = true :=
  charsLtB_trans h1 h2

theorem strLtB_eq_of_not {s t : String} (h1 : strLtB s t = false)
    (h2 : strLtB t s = false) : s = t :=
  string_eq_of_data (charsLtB_eq_of_not h1 h2)

theorem strLeB_refl (s : String) : strLeB s s = true := by
  unfold strLeB
  rw [strLtB_irrefl]
  rfl

theorem strLeB_trans {s t u : String} (h1 : strLeB s t = true)
    (h2 : strLeB t u = true) : strLeB s u = true := by
  unfold strLeB at h1 h2 ⊢
  rw [Bool.not_eq_true'] at h1 h2 ⊢
  by_cases hus : strLtB u s = true
  · exfalso
    by_cases htu : strLtB t u = true
    · have h3 := strLtB_trans htu hus
      rw [h1] at h3
      cases h3
    · have he : t = u := strLtB_eq_of_not (Bool.eq_false_iff.mpr htu) h2
      rw [← he] at hus
      rw [h1] at hus
      cases hus
  · exact Bool.eq_false_iff.mpr hus

theorem strLeB_antisymm {s t : String} (h1 : strLeB s t = true)
    (h2 : strLeB t s = true) : s = t := by
  unfold strLeB at h1 h2
  rw [Bool.not_eq_true'] at h1 h2
  exact strLtB_eq_of_not h2 h1

theorem strLeB_total (s t : String) : strLeB s t = true ∨ strLeB t s = true := by
  unfold strLeB
  rw [Bool.not_eq_true', Bool.not_eq_true']
  by_cases h : strLtB t s = true
  · exact Or.inr (strLtB_asymm h)
  · exact Or.inl (by revert h; cases strLtB t s <;> simp)

theorem keyLeB_iff {a b : String × Nat × String} :
    keyLeB a b = true ↔
      (strLtB a.1 b.1 = true ∨ (a.1 = b.1 ∧
        (a.2.1 < b.2.1 ∨ (a.2.1 = b.2.1 ∧ strLeB a.2.2 b.2.2 = true)))) := by
  unfold keyLeB
  split_ifs with h1 h2 h3 h4
  · simp [h1]
  · have hne : a.1 ≠ b.1 := by
      intro he
      rw [he, strLtB_irrefl] at h2
      cases h2
    simp [h1, hne]
  · have heq : a.1 = b.1 :=
      strLtB_eq_of_not (Bool.eq_false_iff.mpr h1) (Bool.eq_false_iff.mpr h2)
    simp [heq, h3]
  · have heq : a.1 = b.1 :=
      strLtB_eq_of_not (Bool.eq_false_iff.mpr h1) (Bool.eq_false_iff.mpr h2)
    have hne : a.2.1 ≠ b.2.1 := by omega
    simp [heq, h3, hne, strLtB_irrefl]
  · have heq : a.1 = b.1 :=
      strLtB_eq_of_not (Bool.eq_false_iff.mpr h1) (Bool.eq_false_iff.mpr h2)
    have heq2 : a.2.1 = b.2.1 := by omega
    simp [heq, h3, heq2, strLtB_irrefl]

theorem keyLeB_trans {a b c : String × Nat × String}
    (hab : keyLeB a b = true) (hbc : keyLeB b c = true) : keyLeB a c = true := by
  rw [keyLeB_iff] at hab hbc ⊢
  rcases hab with h1 | ⟨e1, hab'⟩ <;> rcases hbc with h2 | ⟨e2, hbc'⟩
  · exact Or.inl (strLtB_trans h1 h2)
  · exact Or.inl (e2 ▸ h1)
  · exact Or.inl (e1 ▸ h2)
  · refine Or.inr ⟨e1.trans e2, ?_⟩
    rcases hab' with g1 | ⟨f1, hab2⟩ <;> rcases hbc' with g2 | ⟨f2, hbc2⟩
    · exact Or.inl (by omega)
    · exact Or.inl (by omega)
    · exact Or.inl (by omega)
    · exact Or.inr ⟨by omega, strLeB_trans hab2 hbc2⟩

theorem keyLeB_total (a b : String × Nat × String) :
    keyLeB a b = true ∨ keyLeB b a = true := by
  rw [keyLeB_iff, keyLeB_iff]
  by_cases h : strLtB a.1 b.1 = true
  · exact Or.inl (Or.inl h)
  · by_cases h' : strLtB b.1 a.1 = true
    · exact Or.inr (Or.inl h')
    · have heq : a.1 = b.1 :=
        strLtB_eq_of_not (Bool.eq_false_iff.mpr h) (Bool.eq_false_iff.mpr h')
      rcases Nat.lt_trichotomy a.2.1 b.2.1 with g | g | g
      · exact Or.inl (Or.inr ⟨heq, Or.inl g⟩)
      · rcases strLeB_total a.2.2 b.2.2 with f | f
        · exact Or.inl (Or.inr ⟨heq, Or.inr ⟨g, f⟩⟩)
        · exact Or.inr (Or.inr ⟨heq.symm, Or.inr ⟨g.symm, f⟩⟩)
      · exact Or.inr (Or.inr ⟨heq.symm, Or.inl g⟩)

theorem sortKey_third (t : String) : (sortKey t).2.2 = t := by
  unfold sortKey
  cases splitLast '/' t.data with
  | some q => rfl
  | none => rfl

theorem tokenLeB_antisymm {s t : String}
    (hst : tokenLeB s t = true) (hts : tokenLeB t s = true) : s = t := by
  unfold tokenLeB at hst hts
  rw [keyLeB_iff] at hst hts
  have e1 : (sortKey s).1 = (sortKey t).1 := by
    rcases hst with h1 | ⟨e, _⟩
    · rcases hts with h2 | ⟨e, _⟩
      · have h3 := strLtB_asymm h1
        rw [h2] at h3
        cases h3
      · rw [e] at h1
        rw [strLtB_irrefl] at h1
        cases h1
    · exact e
  have e2 : (sortKey s).2.1 = (sortKey t).2.1 := by
    rcases hst with h1 | ⟨_, g1 | ⟨f, _⟩⟩
    · rw [e1, strLtB_irrefl] at h1
      cases h1
    · rcases hts with h2 | ⟨_, g2 | ⟨f2, _⟩⟩
      · rw [← e1, strLtB_irrefl] at h2
        cases h2
      · omega
      · omega
    · exact f
  have e3 : (sortKey s).2.2 = (sortKey t).2.2 := by
    rcases hst with h1 | ⟨_, g1 | ⟨_, f1⟩⟩
    · rw [e1, strLtB_irrefl] at h1
      cases h1
    · exact absurd g1 (e2 ▸ lt_irrefl _)
    · rcases hts with h2 | ⟨_, g2 | ⟨_, f2⟩⟩
      · rw [← e1, strLtB_irrefl] at h2
        cases h2
      · exact absurd g2 (e2 ▸ lt_irrefl _)
      · exact strLeB_antisymm f1 f2
  rw [sortKey_third, sortKey_third] at e3
  exact e3

theorem tokenLeB_trans {a b c : String} (hab : tokenLeB a b = true)
    (hbc : tokenLeB b c = true) : tokenLeB a c = true :=
  keyLeB_trans hab hbc

theorem tokenLeB_total (a b : String) : tokenLeB a b || tokenLeB b a := by
  rw [Bool.or_eq_true]
  exact keyLeB_total (sortKey a) (sortKey b)

theorem compress_ports_eq (x : List String) :
    compress_ports x =
      List.insertionSort (fun a b => tokenLeB a b = true)
        (renderAllGroups (classifyTokens ([], []) x).1 ++
          (classifyTokens ([], []) x).2) := rfl

theorem compress_ports_sorted (x : List String) :
    (compress_ports x).Pairwise (fun a b => tokenLeB a b = true) := by
  rw [compress_ports_eq]
  haveI : IsTotal String (fun a b => tokenLeB a b = true) :=
    ⟨fun a b => by have h := tokenLeB_total a b; rw [Bool.or_eq_true] at h; exact h⟩
  haveI : IsTrans String (fun a b => tokenLeB a b = true) :=
    ⟨fun a b c hab hbc => tokenLeB_trans hab hbc⟩
  exact List.sorted_insertionSort (fun a b => tokenLeB a b = true) _

theorem sorted_perm_eq {l₁ l₂ : List String} (hp : List.Perm l₁ l₂)
    (h₁ : l₁.Pairwise (fun a b => tokenLeB a b = true))
    (h₂ : l₂.Pairwise (fun a b => tokenLeB a b = true)) : l₁ = l₂ :=
  @List.eq_of_perm_of_sorted String (fun a b => tokenLeB a b = true)
    ⟨fun _ _ hab hba => tokenLeB_antisymm hab hba⟩ l₁ l₂ hp h₁ h₂

/-! ### Lemmas: the by-proto dictionary -/

theorem bpAdd_mem {d : List (String × List Nat)} {k pr : String} {v n : Nat} :
    n ∈ bpLookup (bpAdd d k v) pr ↔ n ∈ bpLookup d pr ∨ (pr = k ∧ n = v) := by
  unfold bpAdd bpLookup
  by_cases hany : d.any (fun p => p.1 = k)
  · rw [if_pos hany]
    rw [List.find?_map]
    have hpred : ((fun p : String × List Nat => decide (p.1 = pr)) ∘
        (fun p => if p.1 = k then (p.1, p.2 ++ [v]) else p)) =
        (fun p : String × List Nat => decide (p.1 = pr)) := by
      funext q
      by_cases hq : q.1 = k
      · simp [Function.comp, hq]
      · simp [Function.comp, hq]
    rw [hpred]
    by_cases hpk : pr = k
    · subst hpk
      have hsome : (d.find? (fun p => decide (p.1 = pr))).isSome := by
        rw [List.find?_isSome]
        rcases List.any_eq_true.mp hany with ⟨x, hx, hxk⟩
        exact ⟨x, hx, hxk⟩
      cases hf : d.find? (fun p => decide (p.1 = pr)) with
      | none => rw [hf] at hsome; simp at hsome
      | some a =>
        have ha : a.1 = pr := by simpa using List.find?_some hf
        simp [ha]
    · cases hf : d.find? (fun p => decide (p.1 = pr)) with
      | none => simp [hpk]
      | some a =>
        have ha : a.1 = pr := by simpa using List.find?_some hf
        have hak : ¬(a.1 = k) := by rw [ha]; exact hpk
        simp [hak, hpk]
  · rw [if_neg hany]
    rw [List.find?_append]
    cases hf : d.find? (fun p => decide (p.1 = pr)) with
    | some a =>
      have ha : a.1 = pr := by simpa using List.find?_some hf
      have hpk : ¬pr = k := by
        intro he
        rw [List.any_eq_true] at hany
        exact hany ⟨a, List.mem_of_find?_eq_some hf, by simp [ha, he]⟩
      simp [hpk]
    | none =>
      by_cases hpk : pr = k
      · subst hpk
        simp
      · have : ¬(k = pr) := fun he => hpk he.symm
        simp [this, hpk]

theorem bpAdd_key_mem {d : List (String × List Nat)} {k : String} {v : Nat} :
    ∀ q ∈ bpAdd d k v, q.1 ∈ d.map Prod.fst ∨ q.1 = k := by
  unfold bpAdd
  by_cases hany : d.any (fun p => p.1 = k)
  · rw [if_pos hany]
    intro q hq
    rcases List.mem_map.mp hq with ⟨p, hp, hpq⟩
    by_cases hk : p.1 = k
    · rw [if_pos hk] at hpq
      right; rw [← hpq]; exact hk
    · rw [if_neg hk] at hpq
      left; subst hpq; exact List.mem_map_of_mem Prod.fst hp
  · rw [if_neg hany]
    intro q hq
    rcases List.mem_append.mp hq with h1 | h2
    · left; exact List.mem_map_of_mem Prod.fst h1
    · right; simp at h2; rw [h2]

theorem bpAdd_keys_nodup {d : List (String × List Nat)} {k : String} {v : Nat}
    (h : (d.map Prod.fst).Nodup) : ((bpAdd d k v).map Prod.fst).Nodup := by
  unfold bpAdd
  by_cases hany : d.any (fun p => p.1 = k)
  · rw [if_pos hany]
    have : (d.map (fun p => if p.1 = k then (p.1, p.2 ++ [v]) else p)).map Prod.fst =
        d.map Prod.fst := by
      rw [List.map_map]
      apply List.map_congr_left
      intro q hq
      by_cases hk : q.1 = k
      · simp [hk]
      · simp [hk]
    rw [this]
    exact h
  · rw [if_neg hany]
    rw [List.map_append]
    simp only [List.map_cons, List.map_nil]
    rw [List.nodup_append]
    refine ⟨h, List.nodup_singleton k, ?_⟩
    intro a ha hb
    simp at hb
    subst hb
    rw [List.any_eq_true] at hany
    rcases List.mem_map.mp ha with ⟨p, hp, hpq⟩
    exact hany ⟨p, hp, by simp [hpq]⟩

theorem mem_of_bpLookup {d : List (String × List Nat)} {pr : String}
    (h : bpLookup d pr ≠ []) : (pr, bpLookup d pr) ∈ d := by
  unfold bpLookup at *
  cases hf : d.find? (fun p => decide (p.1 = pr)) with
  | none => rw [hf] at h; simp at h
  | some a =>
    have ha : a.1 = pr := by simpa using List.find?_some hf
    have hm := List.mem_of_find?_eq_some hf
    simp only [Option.map_some', Option.getD_some]
    rw [← ha]
    exact hm

theorem bpLookup_of_mem_nodup {d : List (String × List Nat)}
    (hnd : (d.map Prod.fst).Nodup) {pr : String} {ports : List Nat}
    (hm : (pr, ports) ∈ d) : bpLookup d pr = ports := by
  induction d with
  | nil => simp at hm
  | cons q rest ih =>
    rw [List.map_cons, List.nodup_cons] at hnd
    rcases List.mem_cons.mp hm with h1 | h2
    · subst h1
      unfold bpLookup
      rw [List.find?_cons_of_pos _ (by simp)]
      rfl
    · have hq : ¬(q.1 = pr) := by
        intro he
        apply hnd.1
        rw [he]
        exact List.mem_map_of_mem Prod.fst h2
      unfold bpLookup
      rw [List.find?_cons_of_neg _ (by simpa using hq)]
      exact ih hnd.2 h2

/-! ### Lemmas: token classification -/

theorem getLast?_cons_ne_nil {α : Type} {c : α} {l : List α} (h : l ≠ []) :
    (c :: l).getLast? = l.getLast? := by
  rw [List.getLast?_cons]
  cases hg : l.getLast? with
  | none => exact absurd (List.getLast?_eq_none_iff.mp hg) h
  | some c0 => rfl

theorem classify_cons_skip {t : String} (h : pyStrip t = "") (acc : List (String × List Nat) × List String) (ts : List String) :
    classifyTokens acc (t :: ts) = classifyTokens acc ts := by
  rw [classifyTokens, h]
  simp

theorem splitLast_of_strip_empty {t : String} (h : pyStrip t = "") :
    splitLast '/' (pyStrip t).data = none := by
  rw [h]
  rfl

theorem classify_cons_wf {t : String} {q : List Char × List Char}
    (hsp : splitLast '/' (pyStrip t).data = some q) (hd : isDigitsL q.1 = true)
    (acc : List (String × List Nat) × List String) (ts : List String) :
    classifyTokens acc (t :: ts) =
      classifyTokens (bpAdd acc.1 (String.mk q.2) (digitsToNat q.1), acc.2) ts := by
  have hne : ¬(pyStrip t = "") := by
    intro he
    rw [splitLast_of_strip_empty he] at hsp
    exact absurd hsp (by simp)
  rw [classifyTokens]
  simp only [hne, if_false, if_neg hne]
  rw [hsp]
  simp only [hd, if_true, if_pos hd]

theorem classify_cons_pass {t : String} (hne : ¬(pyStrip t = ""))
    (hnk : ∀ q, splitLast '/' (pyStrip t).data = some q → isDigitsL q.1 = false)
    (acc : List (String × List Nat) × List String) (ts : List String) :
    classifyTokens acc (t :: ts) = classifyTokens (acc.1, acc.2 ++ [pyStrip t]) ts := by
  rw [classifyTokens]
  simp only [hne, if_false, if_neg hne]
  cases hsp : splitLast '/' (pyStrip t).data with
  | none => rfl
  | some q =>
    have := hnk q hsp
    simp only [this]
    rfl

theorem isWfTok_of_split {t : String} {q : List Char × List Char}
    (hsp : splitLast '/' t.data = some q) : isWfTok t = isDigitsL q.1 := by
  unfold isWfTok
  rw [hsp]

theorem isWfTok_of_split_none {t : String}
    (hsp : splitLast '/' t.data = none) : isWfTok t = false := by
  unfold isWfTok
  rw [hsp]

theorem classify_snd (ts : List String) : ∀ (acc : List (String × List Nat) × List String),
    (classifyTokens acc ts).2 = acc.2 ++ passList ts := by
  induction ts with
  | nil => intro acc; simp [classifyTokens, passList]
  | cons t ts ih =>
    intro acc
    by_cases he : pyStrip t = ""
    · rw [classify_cons_skip he, ih]
      unfold passList
      simp [he]
    · cases hsp : splitLast '/' (pyStrip t).data with
      | some q =>
        by_cases hd : isDigitsL q.1 = true
        · rw [classify_cons_wf hsp hd, ih]
          have hwf : isWfTok (pyStrip t) = true := by rw [isWfTok_of_split hsp]; exact hd
          unfold passList
          simp [he, hwf]
        · rw [classify_cons_pass he (fun q' hq' => by
            rw [hq'] at hsp
            simp only [Option.some.injEq] at hsp
            rw [hsp]
            exact Bool.eq_false_iff.mpr hd) acc ts, ih]
          have hwf : isWfTok (pyStrip t) = false := by
            rw [isWfTok_of_split hsp]
            exact Bool.eq_false_iff.mpr hd
          unfold passList
          simp [he, hwf]
      | none =>
        rw [classify_cons_pass he (fun q' hq' => by rw [hq'] at hsp; exact absurd hsp (by simp)) acc ts, ih]
        have hwf : isWfTok (pyStrip t) = false := isWfTok_of_split_none hsp
        unfold passList
        simp [he, hwf]

theorem tokKey_of_wf {t : String} {q : List Char × List Char}
    (hsp : splitLast '/' (pyStrip t).data = some q) (hd : isDigitsL q.1 = true) :
    tokKey t = some (String.mk q.2, digitsToNat q.1) := by
  unfold tokKey
  rw [hsp]
  simp [hd]

theorem tokKey_of_pass {t : String}
    (hnk : ∀ q, splitLast '/' (pyStrip t).data = some q → isDigitsL q.1 = false) :
    tokKey t = none := by
  unfold tokKey
  cases hsp : splitLast '/' (pyStrip t).data with
  | none => rfl
  | some q => simp [hnk q hsp]

theorem classify_fst_mem (ts : List String) :
    ∀ (acc : List (String × List Nat) × List String) (pr : String) (n : Nat),
    n ∈ bpLookup (classifyTokens acc ts).1 pr ↔
      n ∈ bpLookup acc.1 pr ∨ ∃ t ∈ ts, tokKey t = some (pr, n) := by
  induction ts with
  | nil => intro acc pr n; simp [classifyTokens]
  | cons t ts ih =>
    intro acc pr n
    by_cases he : pyStrip t = ""
    · rw [classify_cons_skip he, ih]
      have hk : tokKey t = none := by
        unfold tokKey
        rw [splitLast_of_strip_empty he]
      simp [hk]
    · cases hsp : splitLast '/' (pyStrip t).data with
      | some q =>
        by_cases hd : isDigitsL q.1 = true
        · rw [classify_cons_wf hsp hd, ih]
          simp only [bpAdd_mem]
          have hk := tokKey_of_wf hsp hd
          constructor
          · rintro ((h1 | ⟨h2, h3⟩) | ⟨u, hu, hku⟩)
            · exact Or.inl h1
            · refine Or.inr ⟨t, by simp, ?_⟩
              rw [hk, h2, h3]
            · exact Or.inr ⟨u, List.mem_cons_of_mem _ hu, hku⟩
          · rintro (h1 | ⟨u, hu, hku⟩)
            · exact Or.inl (Or.inl h1)
            · rcases List.mem_cons.mp hu with h2 | h3
              · subst h2
                rw [hk] at hku
                simp only [Option.some.injEq, Prod.mk.injEq] at hku
                exact Or.inl (Or.inr ⟨hku.1.symm, hku.2.symm⟩)
              · exact Or.inr ⟨u, h3, hku⟩
        · have hk : tokKey t = none := tokKey_of_pass (fun q' hq' => by
            rw [hq'] at hsp
            simp only [Option.some.injEq] at hsp
            rw [hsp]
            exact Bool.eq_false_iff.mpr hd)
          rw [classify_cons_pass he (fun q' hq' => by
            rw [hq'] at hsp
            simp only [Option.some.injEq] at hsp
            rw [hsp]
            exact Bool.eq_false_iff.mpr hd) acc ts, ih]
          simp [hk]
      | none =>
        have hk : tokKey t = none := tokKey_of_pass
          (fun q' hq' => by rw [hq'] at hsp; exact absurd hsp (by simp))
        rw [classify_cons_pass he
          (fun q' hq' => by rw [hq'] at hsp; exact absurd hsp (by simp)) acc ts, ih]
        simp [hk]

theorem goodKey_of_splitLast {t : String} {q : List Char × List Char}
    (hsp : splitLast '/' (pyStrip t).data = some q) : GoodKey (String.mk q.2) := by
  obtain ⟨heq, hnm⟩ := splitLast_parts hsp
  constructor
  · exact hnm
  · intro c hc
    have hq2 : q.2 ≠ [] := by intro he; rw [he] at hc; simp at hc
    have hlast : (pyStrip t).data.getLast? = some c := by
      rw [heq, List.getLast?_append, getLast?_cons_ne_nil hq2, hc]
      rfl
    rw [pyStrip_data] at hlast
    exact stripL_last hlast

theorem classify_fst_keys (ts : List String) :
    ∀ (acc : List (String × List Nat) × List String),
    (∀ p ∈ acc.1, GoodKey p.1) → ((acc.1.map Prod.fst).Nodup) →
    (∀ p ∈ (classifyTokens acc ts).1, GoodKey p.1) ∧
      (((classifyTokens acc ts).1.map Prod.fst).Nodup) := by
  induction ts with
  | nil => intro acc h1 h2; exact ⟨h1, h2⟩
  | cons t ts ih =>
    intro acc h1 h2
    by_cases he : pyStrip t = ""
    · rw [classify_cons_skip he]
      exact ih acc h1 h2
    · cases hsp : splitLast '/' (pyStrip t).data with
      | some q =>
        by_cases hd : isDigitsL q.1 = true
        · rw [classify_cons_wf hsp hd]
          apply ih
          · intro p hp
            rcases bpAdd_key_mem p hp with hm | hk
            · rcases List.mem_map.mp hm with ⟨p0, hp0, he0⟩
              rw [← he0]
              exact h1 p0 hp0
            · rw [hk]
              exact goodKey_of_splitLast hsp
          · exact bpAdd_keys_nodup h2
        · rw [classify_cons_pass he (fun q' hq' => by
            rw [hq'] at hsp
            simp only [Option.some.injEq] at hsp
            rw [hsp]
            exact Bool.eq_false_iff.mpr hd) acc ts]
          exact ih _ h1 h2
      | none =>
        rw [classify_cons_pass he
          (fun q' hq' => by rw [hq'] at hsp; exact absurd hsp (by simp)) acc ts]
        exact ih _ h1 h2

theorem mem_renderAllGroups {d : List (String × List Nat)} {t : String} :
    t ∈ renderAllGroups d ↔ ∃ pr ports, (pr, ports) ∈ d ∧ t ∈ renderRuns ports pr := by
  induction d with
  | nil => simp [renderAllGroups]
  | cons q rest ih =>
    obtain ⟨pr0, ports0⟩ := q
    rw [renderAllGroups, List.mem_append, ih]
    constructor
    · rintro (h1 | ⟨pr, ports, hm, ht⟩)
      · exact ⟨pr0, ports0, by simp, h1⟩
      · exact ⟨pr, ports, List.mem_cons_of_mem _ hm, ht⟩
    · rintro ⟨pr, ports, hm, ht⟩
      rcases List.mem_cons.mp hm with h1 | h2
      · left
        rw [Prod.mk.injEq] at h1
        obtain ⟨e1, e2⟩ := h1
        subst e1; subst e2
        exact ht
      · right
        exact ⟨pr, ports, h2, ht⟩

/-! ### Lemmas: canonical tokens -/

theorem pyStrip_render1 {pr : String} (gk : GoodKey pr) (n : Nat) :
    pyStrip (render1 pr n) = render1 pr n := by
  rw [← renderInterval_single]
  exact pyStrip_renderInterval pr gk (n, n)

theorem tokKey_render1 {pr : String} (gk : GoodKey pr) (n : Nat) :
    tokKey (render1 pr n) = some (pr, n) := by
  unfold tokKey
  rw [pyStrip_render1 gk n, splitLast_data_render1 _ _ gk.1]
  simp only [isDigitsL_natReprL, if_true, digitsToNat_natReprL]

theorem passList_of_clean {z : List String} (hcl : ∀ t ∈ z, pyStrip t = t ∧ t ≠ "") :
    passList z = z.filter (fun t => !isWfTok t) := by
  unfold passList
  rw [List.map_congr_left (fun t ht => (hcl t ht).1), List.map_id']
  apply List.filter_congr
  intro t ht
  simp [(hcl t ht).2]

theorem sortKey_renderInterval {pr : String} (h : '/' ∉ pr.data) (se : Nat × Nat) :
    sortKey (renderInterval pr se) = (pr, se.1, renderInterval pr se) := by
  obtain ⟨s, e⟩ := se
  by_cases hse : s = e
  · subst hse
    rw [renderInterval_single]
    unfold sortKey
    rw [splitLast_data_render1 _ _ h]
    have hfd : splitFirst '-' (natReprL s) = none :=
      splitFirst_eq_none.mpr (natReprL_no_dash s)
    simp only [hfd, isDigitsL_natReprL, if_true, digitsToNat_natReprL]
  · unfold sortKey
    rw [data_renderRange pr s e hse, splitLast_append_last _ _ _ h]
    have hfd : splitFirst '-' (natReprL s ++ '-' :: natReprL e) =
        some (natReprL s, natReprL e) :=
      splitFirst_append '-' _ _ (natReprL_no_dash s)
    simp only [hfd, isDigitsL_natReprL, if_true, digitsToNat_natReprL]

theorem renderInterval_inj_of_runs {pr : String} (h : '/' ∉ pr.data)
    {l : List Nat} (hc : List.Chain' (fun a b : Nat => a < b) l)
    {x y : Nat × Nat} (hx : x ∈ runs l) (hy : y ∈ runs l)
    (he : renderInterval pr x = renderInterval pr y) : x = y := by
  by_contra hne
  have hgap := runs_pairwise_gap hc
  have hle := runs_le hc
  have hs : x.1 = y.1 := by
    have h1 := sortKey_renderInterval h x
    have h2 := sortKey_renderInterval h y
    rw [he] at h1
    rw [h1] at h2
    simp only [Prod.mk.injEq] at h2
    exact h2.2.1
  rcases pairwise_mem_rel hgap hx hy with h1 | h2 | h3
  · exact hne h1
  · have := hle x hx
    omega
  · have := hle y hy
    omega

theorem renderRuns_nodup {pr : String} (h : '/' ∉ pr.data) (ports : List Nat) :
    (renderRuns ports pr).Nodup := by
  unfold renderRuns
  apply List.Nodup.map_on
  · intro x hx y hy he
    exact renderInterval_inj_of_runs h (sortedDedup_chain_lt ports) hx hy he
  · -- runs of a strictly ascending list is nodup: from pairwise gaps
    have hgap := runs_pairwise_gap (sortedDedup_chain_lt ports)
    have hle := runs_le (sortedDedup_chain_lt ports)
    apply List.Pairwise.imp_of_mem ?_ hgap
    intro a b ha hb hg
    intro heq
    subst heq
    have := hle a ha
    omega

theorem renderAllGroups_wf_mem {d : List (String × List Nat)}
    (hnd : (d.map Prod.fst).Nodup) {t : String} :
    t ∈ renderAllGroups d ↔
      ∃ pr se, (pr, bpLookup d pr) ∈ d ∧ se ∈ runs (sortedDedup (bpLookup d pr)) ∧
        t = renderInterval pr se := by
  rw [mem_renderAllGroups]
  constructor
  · rintro ⟨pr, ports, hm, ht⟩
    have hl := bpLookup_of_mem_nodup hnd hm
    unfold renderRuns at ht
    rcases List.mem_map.mp ht with ⟨se, hse, hte⟩
    exact ⟨pr, se, by rw [hl]; exact hm, by rw [hl]; exact hse, hte.symm⟩
  · rintro ⟨pr, se, hm, hse, ht⟩
    refine ⟨pr, bpLookup d pr, hm, ?_⟩
    unfold renderRuns
    rw [ht]
    exact List.mem_map_of_mem _ hse

theorem renderAllGroups_nodup {d : List (String × List Nat)}
    (hnd : (d.map Prod.fst).Nodup) (hgood : ∀ p ∈ d, GoodKey p.1) :
    (renderAllGroups d).Nodup := by
  induction d with
  | nil => simp [renderAllGroups]
  | cons q rest ih =>
    obtain ⟨pr, ports⟩ := q
    rw [renderAllGroups, List.nodup_append]
    rw [List.map_cons, List.nodup_cons] at hnd
    have hgk : GoodKey pr := hgood (pr, ports) (by simp)
    refine ⟨renderRuns_nodup hgk.1 ports, ih hnd.2 (fun p hp => hgood p (List.mem_cons_of_mem _ hp)), ?_⟩
    intro t ht hta
    rcases List.mem_map.mp ht with ⟨se, hse, hte⟩
    rcases mem_renderAllGroups.mp hta with ⟨pr2, ports2, hm2, ht2⟩
    rcases List.mem_map.mp ht2 with ⟨se2, hse2, hte2⟩
    have hgk2 : GoodKey pr2 := hgood (pr2, ports2) (List.mem_cons_of_mem _ hm2)
    have h1 := sortKey_renderInterval hgk.1 se
    have h2 := sortKey_renderInterval hgk2.1 se2
    rw [hte] at h1
    rw [hte2] at h2
    have h3 := h1.symm.trans h2
    simp only [Prod.mk.injEq] at h3
    apply hnd.1
    rw [h3.1]
    exact List.mem_map.mpr ⟨(pr2, ports2), hm2, rfl⟩

/-- A canonical list is a fixed point of compress_ports. -/
theorem compress_ports_of_canonical {z : List String} (hz : Canonical z) :
    compress_ports z = z := by
  obtain ⟨hsort, hclean, hwf1, hwfnd, hspread⟩ := hz
  have hkeys := classify_fst_keys z ([], []) (by intro p hp; simp at hp) (by simp)
  have hmem0 : ∀ (pr : String) (n : Nat),
      n ∈ bpLookup (classifyTokens ([], []) z).1 pr ↔
        ∃ t ∈ z, tokKey t = some (pr, n) := by
    intro pr n
    rw [classify_fst_mem z ([], []) pr n]
    simp [bpLookup]
  have hE : ∀ (pr : String), GoodKey pr → ∀ (n : Nat),
      n ∈ bpLookup (classifyTokens ([], []) z).1 pr ↔ render1 pr n ∈ z := by
    intro pr hgk n
    rw [hmem0]
    constructor
    · rintro ⟨u, hu, hku⟩
      have hwfu : isWfTok u = true := by
        unfold tokKey at hku
        cases hsp : splitLast '/' (pyStrip u).data with
        | none => rw [hsp] at hku; simp at hku
        | some q =>
          rw [hsp] at hku
          by_cases hd : isDigitsL q.1 = true
          · rw [(hclean u hu).1] at hsp
            rw [isWfTok_of_split hsp]
            exact hd
          · simp [hd] at hku
      rcases hwf1 u hu hwfu with ⟨pq, m, hgk2, hum⟩
      rw [hum, tokKey_render1 hgk2 m] at hku
      simp only [Option.some.injEq, Prod.mk.injEq] at hku
      rw [← hku.1, ← hku.2, ← hum]
      exact hu
    · intro hmem
      exact ⟨render1 pr n, hmem, tokKey_render1 hgk n⟩
  have hgroups : ∀ (pr : String), GoodKey pr →
      renderRuns (bpLookup (classifyTokens ([], []) z).1 pr) pr =
        (sortedDedup (bpLookup (classifyTokens ([], []) z).1 pr)).map (render1 pr) := by
    intro pr hgk
    unfold renderRuns
    have hchain : List.Chain' (fun a b : Nat => a + 2 ≤ b)
        (sortedDedup (bpLookup (classifyTokens ([], []) z).1 pr)) := by
      apply chain'_imp_mem (sortedDedup_chain_lt _)
      intro a ha b hb hab
      have hax := (hE pr hgk a).mp (mem_sortedDedup.mp ha)
      have hbx := (hE pr hgk b).mp (mem_sortedDedup.mp hb)
      rcases hspread pr a b hgk hax hbx (Nat.ne_of_lt hab) with h1 | h2
      · exact h1
      · omega
    rw [runs_spread hchain, List.map_map]
    apply List.map_congr_left
    intro n hn
    simp only [Function.comp]
    exact renderInterval_single pr n
  have hA : ∀ t, t ∈ renderAllGroups (classifyTokens ([], []) z).1 ↔
      t ∈ z.filter isWfTok := by
    intro t
    rw [renderAllGroups_wf_mem hkeys.2, List.mem_filter]
    constructor
    · rintro ⟨pr, se, hm, hse, hte⟩
      have hgk : GoodKey pr := hkeys.1 _ hm
      have hrw := hgroups pr hgk
      unfold renderRuns at hrw
      have : renderInterval pr se ∈
          (runs (sortedDedup (bpLookup (classifyTokens ([], []) z).1 pr))).map
            (renderInterval pr) := List.mem_map_of_mem _ hse
      rw [hrw] at this
      rcases List.mem_map.mp this with ⟨n, hn, hne⟩
      have hmem := (hE pr hgk n).mp (mem_sortedDedup.mp hn)
      rw [hte, ← hne]
      exact ⟨hmem, isWfTok_render1 pr n hgk.1⟩
    · rintro ⟨hmz, hwf⟩
      rcases hwf1 t hmz hwf with ⟨pr, n, hgk, hte⟩
      have hmem : n ∈ bpLookup (classifyTokens ([], []) z).1 pr := by
        rw [hE pr hgk n]
        rw [← hte]
        exact hmz
      have hne : bpLookup (classifyTokens ([], []) z).1 pr ≠ [] := by
        intro he
        rw [he] at hmem
        simp at hmem
      refine ⟨pr, (n, n), mem_of_bpLookup hne, ?_, by rw [hte, renderInterval_single]⟩
      have : (n, n) ∈ (sortedDedup (bpLookup (classifyTokens ([], []) z).1 pr)).map
          (fun m => (m, m)) := List.mem_map_of_mem _ (mem_sortedDedup.mpr hmem)
      have hchain : List.Chain' (fun a b : Nat => a + 2 ≤ b)
          (sortedDedup (bpLookup (classifyTokens ([], []) z).1 pr)) := by
        apply chain'_imp_mem (sortedDedup_chain_lt _)
        intro a ha b hb hab
        have hax := (hE pr hgk a).mp (mem_sortedDedup.mp ha)
        have hbx := (hE pr hgk b).mp (mem_sortedDedup.mp hb)
        rcases hspread pr a b hgk hax hbx (Nat.ne_of_lt hab) with h1 | h2
        · exact h1
        · omega
      rw [runs_spread hchain]
      exact this
  have hAnd : (renderAllGroups (classifyTokens ([], []) z).1).Nodup :=
    renderAllGroups_nodup hkeys.2 hkeys.1
  have hpermA : List.Perm (renderAllGroups (classifyTokens ([], []) z).1)
      (z.filter isWfTok) :=
    (List.perm_ext_iff_of_nodup hAnd hwfnd).mpr hA
  have hsnd : (classifyTokens ([], []) z).2 = z.filter (fun t => !isWfTok t) := by
    rw [classify_snd z ([], []), passList_of_clean hclean]
    rfl
  have hperm : List.Perm
      (renderAllGroups (classifyTokens ([], []) z).1 ++ (classifyTokens ([], []) z).2) z := by
    rw [hsnd]
    exact (hpermA.append (List.Perm.refl _)).trans (List.filter_append_perm _ z)
  rw [compress_ports_eq]
  exact sorted_perm_eq ((List.perm_insertionSort _ _).trans hperm)
    (by rw [← compress_ports_eq]; exact compress_ports_sorted z) hsort

/-- The output of compress_ports is canonical. -/
theorem canonical_compress_ports (x : List String) : Canonical (compress_ports x) := by
  have hkeys := classify_fst_keys x ([], []) (by intro p hp; simp at hp) (by simp)
  have hsnd : (classifyTokens ([], []) x).2 = passList x := by
    rw [classify_snd x ([], [])]
    rfl
  have hout : ∀ t, t ∈ compress_ports x ↔
      t ∈ renderAllGroups (classifyTokens ([], []) x).1 ∨ t ∈ passList x := by
    intro t
    rw [compress_ports_eq, List.mem_insertionSort, List.mem_append, hsnd]
  refine ⟨compress_ports_sorted x, ?_, ?_, ?_, ?_⟩
  · intro t ht
    rcases (hout t).mp ht with hA | hP
    · rcases (renderAllGroups_wf_mem hkeys.2).mp hA with ⟨pr, se, hm, hse, hte⟩
      have hgk : GoodKey pr := hkeys.1 _ hm
      rw [hte]
      exact ⟨pyStrip_renderInterval pr hgk se, renderInterval_ne_empty pr se⟩
    · simp only [passList, List.mem_filter, List.mem_map] at hP
      obtain ⟨⟨u, hu, hut⟩, hcond⟩ := hP
      constructor
      · rw [← hut]
        exact pyStrip_idem u
      · intro he
        rw [he] at hcond
        simp at hcond
  · intro t ht hwf
    rcases (hout t).mp ht with hA | hP
    · rcases (renderAllGroups_wf_mem hkeys.2).mp hA with ⟨pr, se, hm, hse, hte⟩
      have hgk : GoodKey pr := hkeys.1 _ hm
      obtain ⟨s, e⟩ := se
      by_cases hc : s = e
      · refine ⟨pr, s, hgk, ?_⟩
        subst hc
        rw [hte, renderInterval_single]
      · exfalso
        rw [hte, renderRange_not_wf pr s e hc hgk.1] at hwf
        exact Bool.false_ne_true hwf
    · exfalso
      simp only [passList, List.mem_filter, Bool.and_eq_true] at hP
      have := hP.2.2
      rw [hwf] at this
      simp at this
  · have hperm : List.Perm (compress_ports x)
        (renderAllGroups (classifyTokens ([], []) x).1 ++ passList x) := by
      rw [compress_ports_eq, hsnd]
      exact List.perm_insertionSort _ _
    have h2 := hperm.filter isWfTok
    apply List.Perm.nodup h2.symm
    rw [List.filter_append]
    have hp0 : (passList x).filter isWfTok = [] := by
      rw [List.filter_eq_nil_iff]
      intro a ha
      simp only [passList, List.mem_filter, Bool.and_eq_true] at ha
      have := ha.2.2
      intro hwf
      rw [hwf] at this
      simp at this
    rw [hp0, List.append_nil]
    exact List.Nodup.filter _ (renderAllGroups_nodup hkeys.2 hkeys.1)
  · intro pr n m hgk hn hm hnm
    have hsingle : ∀ k, render1 pr k ∈ compress_ports x →
        (k, k) ∈ runs (sortedDedup (bpLookup (classifyTokens ([], []) x).1 pr)) := by
      intro k hk
      rcases (hout _).mp hk with hA | hP
      · rcases (renderAllGroups_wf_mem hkeys.2).mp hA with ⟨pr1, se1, hm1, hse1, hte1⟩
        have hgk1 : GoodKey pr1 := hkeys.1 _ hm1
        obtain ⟨s, e⟩ := se1
        by_cases hc : s = e
        · subst hc
          rw [renderInterval_single] at hte1
          obtain ⟨hpe, hne⟩ := render1_inj hgk.1 hgk1.1 hte1
          subst hpe
          rw [hne]
          exact hse1
        · exact absurd hte1 (render1_ne_renderRange hgk.1 hgk1.1 hc)
      · exfalso
        simp only [passList, List.mem_filter, Bool.and_eq_true] at hP
        have := hP.2.2
        rw [isWfTok_render1 pr k hgk.1] at this
        simp at this
    have h1 := hsingle n hn
    have h2 := hsingle m hm
    have hgap := runs_pairwise_gap
      (sortedDedup_chain_lt (bpLookup (classifyTokens ([], []) x).1 pr))
    rcases pairwise_mem_rel hgap h1 h2 with he | hg1 | hg2
    · exfalso
      apply hnm
      have := congrArg Prod.fst he
      simpa using this
    · left; simpa using hg1
    · right; simpa using hg2

/-! ### Lemmas: python dict operations -/

theorem dictGet_dictSet_self {α : Type} (d : List (String × α)) (k : String) (v : α) :
    dictGet (dictSet d k v) k = some v := by
  unfold dictSet dictGet
  by_cases hany : d.any (fun p => p.1 = k)
  · rw [if_pos hany]
    rw [List.find?_map]
    have hsome : (d.find? ((fun p : String × α => decide (p.1 = k)) ∘
        (fun p => if p.1 = k then (k, v) else p))).isSome = true := by
      rw [List.find?_isSome]
      rcases List.any_eq_true.mp hany with ⟨p0, hp0, hpk⟩
      refine ⟨p0, hp0, ?_⟩
      simp only [decide_eq_true_eq] at hpk
      simp [Function.comp, hpk]
    cases hf : d.find? ((fun p : String × α => decide (p.1 = k)) ∘
        (fun p => if p.1 = k then (k, v) else p)) with
    | none => rw [hf] at hsome; simp at hsome
    | some a =>
      have ha := List.find?_some hf
      simp only [Function.comp, decide_eq_true_eq] at ha
      by_cases hak : a.1 = k
      · simp [hak]
      · rw [if_neg hak] at ha
        exact absurd ha hak
  · rw [if_neg hany]
    rw [List.find?_append]
    have hnone : d.find? (fun p => decide (p.1 = k)) = none := by
      rw [List.find?_eq_none]
      intro x hx hpx
      rw [List.any_eq_true] at hany
      exact hany ⟨x, hx, hpx⟩
    rw [hnone]
    simp

theorem dictGet_dictSet_other {α : Type} (d : List (String × α)) (k : String) (v : α)
    (k' : String) (h : ¬(k' = k)) : dictGet (dictSet d k v) k' = dictGet d k' := by
  unfold dictSet dictGet
  by_cases hany : d.any (fun p => p.1 = k)
  · rw [if_pos hany]
    rw [List.find?_map]
    have hpred : ((fun p : String × α => decide (p.1 = k')) ∘
        (fun p => if p.1 = k then (k, v) else p)) =
        (fun p : String × α => decide (p.1 = k')) := by
      funext q
      by_cases hq : q.1 = k
      · have : ¬(k = k') := fun he => h he.symm
        simp [Function.comp, hq, this]
      · simp [Function.comp, hq]
    rw [hpred]
    cases hf : d.find? (fun p : String × α => decide (p.1 = k')) with
    | none => rfl
    | some a =>
      have ha : a.1 = k' := by simpa using List.find?_some hf
      have hak : ¬(a.1 = k) := by rw [ha]; exact h
      simp [hak]
  · rw [if_neg hany]
    rw [List.find?_append]
    have hone : List.find? (fun p : String × α => decide (p.1 = k')) [(k, v)] = none := by
      have : ¬(k = k') := fun he => h he.symm
      simp [this]
    rw [hone]
    cases d.find? (fun p : String × α => decide (p.1 = k')) <;> rfl

theorem dictGet_dictSetdefault_self {α : Type} (d : List (String × α)) (k : String) (v : α) :
    dictGet (dictSetdefault d k v) k = some ((dictGet d k).getD v) := by
  unfold dictSetdefault dictGet
  by_cases hany : d.any (fun p => p.1 = k)
  · rw [if_pos hany]
    have hsome : (d.find? (fun p : String × α => decide (p.1 = k))).isSome = true := by
      rw [List.find?_isSome]
      rcases List.any_eq_true.mp hany with ⟨p0, hp0, hpk⟩
      exact ⟨p0, hp0, hpk⟩
    cases hf : d.find? (fun p : String × α => decide (p.1 = k)) with
    | none => rw [hf] at hsome; simp at hsome
    | some a => simp
  · rw [if_neg hany]
    rw [List.find?_append]
    have hnone : d.find? (fun p : String × α => decide (p.1 = k)) = none := by
      rw [List.find?_eq_none]
      intro x hx hpx
      rw [List.any_eq_true] at hany
      exact hany ⟨x, hx, hpx⟩
    rw [hnone]
    simp

theorem dictGet_dictSetdefault_other {α : Type} (d : List (String × α)) (k : String) (v : α)
    (k' : String) (h : ¬(k' = k)) :
    dictGet (dictSetdefault d k v) k' = dictGet d k' := by
  unfold dictSetdefault dictGet
  by_cases hany : d.any (fun p => p.1 = k)
  · rw [if_pos hany]
  · rw [if_neg hany]
    rw [List.find?_append]
    have hone : List.find? (fun p : String × α => decide (p.1 = k')) [(k, v)] = none := by
      have : ¬(k = k') := fun he => h he.symm
      simp [this]
    rw [hone]
    cases d.find? (fun p : String × α => decide (p.1 = k')) <;> rfl

/-! ### Lemmas: network table lookup -/

theorem sortNetworks_sorted (nets : List (IpNetwork × String)) :
    (sortNetworks nets).Pairwise
      (fun a b : IpNetwork × String => b.1.prefixlen ≤ a.1.prefixlen) := by
  unfold sortNetworks
  haveI : IsTotal (IpNetwork × String) (fun a b => b.1.prefixlen ≤ a.1.prefixlen) :=
    ⟨fun a b => Nat.le_total b.1.prefixlen a.1.prefixlen⟩
  haveI : IsTrans (IpNetwork × String) (fun a b => b.1.prefixlen ≤ a.1.prefixlen) :=
    ⟨fun a b c hab hbc => Nat.le_trans hbc hab⟩
  exact List.sorted_insertionSort (fun a b => b.1.prefixlen ≤ a.1.prefixlen) nets

theorem load_networks_sorted {header : List String} {rows : List Row} {t : FwObjectsLookup}
    (h : FwObjectsLookup.load header rows = Except.ok t) :
    t.networks.Pairwise (fun a b : IpNetwork × String => b.1.prefixlen ≤ a.1.prefixlen) := by
  simp only [FwObjectsLookup.load] at h
  split at h
  · exact absurd h (by simp)
  · simp only [Except.ok.injEq] at h
    rw [← h]
    exact sortNetworks_sorted _

theorem findNameScan_eq_none {nets : List (IpNetwork × String)} {ip : IpAddr} :
    findNameScan nets ip = none ↔
      ∀ net name, (net, name) ∈ nets → net.version = ip.version →
        ipInNetwork net ip = false := by
  induction nets with
  | nil => simp [findNameScan]
  | cons q rest ih =>
    obtain ⟨net0, name0⟩ := q
    rw [findNameScan]
    by_cases hv : net0.version = ip.version
    · rw [if_neg (by simp [hv])]
      by_cases hc : ipInNetwork net0 ip
      · rw [if_pos hc]
        constructor
        · intro h; simp at h
        · intro h
          have := h net0 name0 (by simp) hv
          rw [hc] at this
          simp at this
      · rw [if_neg hc]
        rw [ih]
        constructor
        · intro h net name hm hver
          rcases List.mem_cons.mp hm with h1 | h2
          · rw [Prod.mk.injEq] at h1
            rw [h1.1]
            exact Bool.eq_false_iff.mpr hc
          · exact h net name h2 hver
        · intro h net name hm hver
          exact h net name (List.mem_cons_of_mem _ hm) hver
    · rw [if_pos (by simp [hv])]
      rw [ih]
      constructor
      · intro h net name hm hver
        rcases List.mem_cons.mp hm with h1 | h2
        · rw [Prod.mk.injEq] at h1
          exact absurd (h1.1 ▸ hver) hv
        · exact h net name h2 hver
      · intro h net name hm hver
        exact h net name (List.mem_cons_of_mem _ hm) hver

theorem findNameScan_spec {nets : List (IpNetwork × String)} {ip : IpAddr} {name : String}
    (hp : nets.Pairwise (fun a b : IpNetwork × String => b.1.prefixlen ≤ a.1.prefixlen))
    (h : findNameScan nets ip = some name) :
    ∃ net, (net, name) ∈ nets ∧ net.version = ip.version ∧ ipInNetwork net ip = true ∧
      ∀ net' name', (net', name') ∈ nets → net'.version = ip.version →
        ipInNetwork net' ip = true → net'.prefixlen ≤ net.prefixlen := by
  induction nets with
  | nil => simp [findNameScan] at h
  | cons q rest ih =>
    obtain ⟨net0, name0⟩ := q
    rw [List.pairwise_cons] at hp
    rw [findNameScan] at h
    by_cases hv : net0.version = ip.version
    · rw [if_neg (by simp [hv])] at h
      by_cases hc : ipInNetwork net0 ip
      · rw [if_pos hc] at h
        simp only [Option.some.injEq] at h
        subst h
        refine ⟨net0, by simp, hv, hc, ?_⟩
        intro net' name' hm hver hcon
        rcases List.mem_cons.mp hm with h1 | h2
        · rw [Prod.mk.injEq] at h1
          rw [h1.1]
        · exact hp.1 (net', name') h2
      · rw [if_neg hc] at h
        rcases ih hp.2 h with ⟨net, hm, hver, hcon, hmax⟩
        refine ⟨net, List.mem_cons_of_mem _ hm, hver, hcon, ?_⟩
        intro net' name' hm' hver' hcon'
        rcases List.mem_cons.mp hm' with h1 | h2
        · rw [Prod.mk.injEq] at h1
          exfalso
          rw [h1.1] at hcon'
          exact hc hcon'

        · exact hmax net' name' h2 hver' hcon'
    · rw [if_pos (by simp [hv])] at h
      rcases ih hp.2 h with ⟨net, hm, hver, hcon, hmax⟩
      refine ⟨net, List.mem_cons_of_mem _ hm, hver, hcon, ?_⟩
      intro net' name' hm' hver' hcon'
      rcases List.mem_cons.mp hm' with h1 | h2
      · rw [Prod.mk.injEq] at h1
        exact absurd (h1.1 ▸ hver') hv
      · exact hmax net' name' h2 hver' hcon'

/-! ### Lemmas: masks and prefixes -/

theorem prefixFromIpInt_le {bits v p : Nat} (h : prefixFromIpInt bits v = some p) :
    p ≤ bits := by
  have he : prefixFromIpInt bits v =
      (if v >>> (if v = 0 then bits else ctz bits v) =
          2 ^ (bits - (if v = 0 then bits else ctz bits v)) - 1 then
        some (bits - (if v = 0 then bits else ctz bits v))
      else none) := rfl
  rw [he] at h
  split at h <;> split at h <;>
    first
      | (simp only [Option.some.injEq] at h; omega)
      | (exact absurd h (by simp))

theorem splitAllChar_not_mem {c : Char} {l : List Char} (h : c ∉ l) :
    splitAllChar c l = [l] := by
  induction l with
  | nil => rfl
  | cons a t ih =>
    rw [splitAllChar]
    have ht : c ∉ t := fun hm => h (List.mem_cons_of_mem _ hm)
    have ha : ¬(a = c) := fun he => h (by rw [he]; simp)
    rw [ih ht]
    simp [ha]

theorem parseIPv4L_digits_none {l : List Char} (hd : isDigitsL l = true) :
    parseIPv4L l = none := by
  unfold parseIPv4L
  have hnd : '.' ∉ l := by
    intro hm
    have := isDigitsL_all hd _ hm
    simp [isDigitChar] at this
  rw [splitAllChar_not_mem hnd]

theorem prefixFromIpStringV4_le {l : List Char} {p : Nat}
    (h : prefixFromIpStringV4 l = some p) : p ≤ 32 := by
  unfold prefixFromIpStringV4 at h
  cases hp : parseIPv4L l with
  | none => rw [hp] at h; simp at h
  | some v =>
    simp only [hp] at h
    cases hq : prefixFromIpInt 32 v with
    | some q =>
      simp only [hq, Option.some.injEq] at h
      rw [← h]
      exact prefixFromIpInt_le hq
    | none =>
      simp only [hq] at h
      exact prefixFromIpInt_le h

theorem maskToPrefixLen_le {m : String} {p : Nat} (h : maskToPrefixLen m = some p) :
    p ≤ 32 := by
  unfold maskToPrefixLen at h
  split at h
  · exact absurd h (by simp)
  · split at h
    · split at h
      · simp only [Option.some.injEq] at h
        rename_i hle
        omega
      · exact prefixFromIpStringV4_le h
    · exact prefixFromIpStringV4_le h

theorem maskToPrefixLen_big_digits {m : String} (hd : isDigitsL m.data = true)
    (hb : 32 < digitsToNat m.data) : maskToPrefixLen m = none := by
  unfold maskToPrefixLen
  rw [if_neg (by simpa using isDigitsL_no_slash hd), if_pos hd, if_neg (by omega)]
  unfold prefixFromIpStringV4
  rw [parseIPv4L_digits_none hd]

/-! ### Lemmas: whitespace splitting and expansion -/

theorem mem_of_getLast? {α : Type} {l : List α} {c : α} (h : l.getLast? = some c) :
    c ∈ l := by
  rw [← List.head?_reverse] at h
  exact List.mem_reverse.mp (List.mem_of_mem_head? (h ▸ rfl))

theorem stripL_no_ws {l : List Char} (h : ∀ c ∈ l, pyIsSpace c = false) :
    stripL l = l :=
  stripL_eq_self
    (fun c hc => h c (List.mem_of_mem_head? (hc ▸ rfl)))
    (fun c hc => h c (mem_of_getLast? hc))

theorem wsSplitGo_no_ws {l : List Char} (h : ∀ c ∈ l, pyIsSpace c = false) :
    ∀ cur : List Char, cur.reverse ++ l ≠ [] → wsSplitGo l cur = [cur.reverse ++ l] := by
  induction l with
  | nil =>
    intro cur hne
    rw [wsSplitGo]
    rw [List.append_nil] at hne ⊢
    rw [if_neg (by simpa [List.isEmpty_iff] using fun he => hne (by rw [he]; rfl))]
  | cons c rest ih =>
    intro cur hne
    rw [wsSplitGo]
    rw [if_neg (by simp [h c (by simp)])]
    have := ih (fun a ha => h a (List.mem_cons_of_mem _ ha)) (c :: cur) (by simp)
    rw [this]
    simp

theorem wsSplit_no_ws {l : List Char} (h : ∀ c ∈ l, pyIsSpace c = false) (hne : l ≠ []) :
    wsSplit l = [l] := by
  unfold wsSplit
  have := wsSplitGo_no_ws h [] (by simpa using hne)
  simpa using this

/-! ### Lemmas: port range expansion -/

theorem data_rangeStr (a b : Nat) :
    (natRepr a ++ "-" ++ natRepr b).data = natReprL a ++ '-' :: natReprL b := by
  show (natReprL a ++ ['-']) ++ natReprL b = _
  simp

theorem rangeStr_no_ws (a b : Nat) :
    ∀ c ∈ natReprL a ++ '-' :: natReprL b, pyIsSpace c = false := by
  intro c hc
  simp only [List.mem_append, List.mem_cons] at hc
  rcases hc with h1 | h2 | h3
  · exact isDigitChar_not_space (natReprL_digits a c h1)
  · subst h2; rfl
  · exact isDigitChar_not_space (natReprL_digits b c h3)

theorem string_ne_empty_of_data {s : String} (h : s.data ≠ []) : s ≠ "" := by
  intro he
  rw [he] at h
  exact h rfl

theorem expandOne_range (a b : Nat) (hab : a ≤ b) (p : String) :
    expandOne p (natReprL a ++ '-' :: natReprL b) =
      (List.range' a (b - a + 1)).map (fun k => render1 p k) := by
  unfold expandOne
  rw [splitFirst_append '-' _ _ (natReprL_no_dash a)]
  simp only [isDigitsL_natReprL, digitsToNat_natReprL, hab, decide_eq_true_eq,
    Bool.and_self, Bool.and_true, Bool.true_and, if_true, decide_True]
  rfl

theorem expand_range (a b : Nat) (hab : a ≤ b) (p : String) :
    expand_port_tokens (natRepr a ++ "-" ++ natRepr b) p =
      (List.range' a (b - a + 1)).map (fun k => render1 p k) := by
  unfold expand_port_tokens
  have hdata := data_rangeStr a b
  have hnws := rangeStr_no_ws a b
  have hne : natReprL a ++ '-' :: natReprL b ≠ [] := by simp
  rw [if_neg ?hstrip]
  case hstrip =>
    apply string_ne_empty_of_data
    rw [pyStrip_data, hdata, stripL_no_ws hnws]
    exact hne
  rw [hdata, wsSplit_no_ws hnws hne]
  simp only [List.map_cons, List.map_nil, List.flatten_cons, List.flatten_nil,
    List.append_nil]
  exact expandOne_range a b hab p

theorem expandOne_verbatim (p : String) (t : List Char)
    (h : ∀ q, splitFirst '-' t = some q →
      ¬(isDigitsL q.1 = true ∧ isDigitsL q.2 = true ∧ digitsToNat q.1 ≤ digitsToNat q.2)) :
    expandOne p t = [String.mk t ++ "/" ++ p] := by
  unfold expandOne
  cases hs : splitFirst '-' t with
  | none => rfl
  | some q =>
    have hq := h q hs
    have hcond : (isDigitsL q.1 && isDigitsL q.2 && decide (digitsToNat q.1 ≤ digitsToNat q.2)) = false := by
      by_contra hcc
      rw [Bool.not_eq_false, Bool.and_eq_true, Bool.and_eq_true] at hcc
      exact hq ⟨hcc.1.1, hcc.1.2, by simpa using hcc.2⟩
    simp [hcond]

theorem expand_single_verbatim (t : List Char) (p : String)
    (hnws : ∀ c ∈ t, pyIsSpace c = false) (hne : t ≠ [])
    (h : ∀ q, splitFirst '-' t = some q →
      ¬(isDigitsL q.1 = true ∧ isDigitsL q.2 = true ∧ digitsToNat q.1 ≤ digitsToNat q.2)) :
    expand_port_tokens (String.mk t) p = [String.mk t ++ "/" ++ p] := by
  unfold expand_port_tokens
  rw [if_neg ?hstrip]
  case hstrip =>
    apply string_ne_empty_of_data
    rw [pyStrip_data]
    show stripL t ≠ []
    rw [stripL_no_ws hnws]
    exact hne
  show ((wsSplit t).map (expandOne p)).flatten = _
  rw [wsSplit_no_ws hnws hne]
  simp only [List.map_cons, List.map_nil, List.flatten_cons, List.flatten_nil,
    List.append_nil]
  exact expandOne_verbatim p t h

theorem classify_map_single (p : String) (gk : GoodKey p) (pt : List String) :
    ∀ (ks : List Nat) (l : List Nat),
      classifyTokens ([(p, l)], pt) (ks.map (fun k => render1 p k)) = ([(p, l ++ ks)], pt) := by
  intro ks
  induction ks with
  | nil => intro l; simp [classifyTokens]
  | cons k ks ih =>
    intro l
    rw [List.map_cons]
    have hsp : splitLast '/' (pyStrip (render1 p k)).data = some (natReprL k, p.data) := by
      rw [pyStrip_render1 gk k]
      exact splitLast_data_render1 p k gk.1
    rw [classify_cons_wf hsp (isDigitsL_natReprL k)]
    have hbp : bpAdd [(p, l)] (String.mk p.data) (digitsToNat (natReprL k)) =
        [(p, l ++ [k])] := by
      rw [digitsToNat_natReprL]
      have hmk : String.mk p.data = p := rfl
      rw [hmk]
      simp [bpAdd]
    rw [hbp, ih (l ++ [k])]
    simp

theorem classify_map_single_cons (p : String) (gk : GoodKey p) (pt : List String)
    (k : Nat) (ks : List Nat) :
    classifyTokens ([], pt) ((k :: ks).map (fun k => render1 p k)) = ([(p, k :: ks)], pt) := by
  rw [List.map_cons]
  have hsp : splitLast '/' (pyStrip (render1 p k)).data = some (natReprL k, p.data) := by
    rw [pyStrip_render1 gk k]
    exact splitLast_data_render1 p k gk.1
  rw [classify_cons_wf hsp (isDigitsL_natReprL k)]
  have hbp : bpAdd [] (String.mk p.data) (digitsToNat (natReprL k)) = [(p, [k])] := by
    rw [digitsToNat_natReprL]
    rfl
  rw [hbp, classify_map_single p gk pt ks [k]]
  rfl

theorem compress_map_single (p : String) (gk : GoodKey p) (a m : Nat) :
    compress_ports ((List.range' a (m + 1)).map (fun k => render1 p k)) =
      [renderInterval p (a, a + m)] := by
  rw [compress_ports_eq]
  rw [List.range'_succ]
  rw [classify_map_single_cons p gk [] a (List.range' (a + 1) m)]
  have hchain : List.Chain' (fun x y : Nat => x < y) (a :: List.range' (a + 1) m) := by
    apply List.Pairwise.chain'
    rw [← List.range'_succ]
    exact List.pairwise_lt_range' a (m + 1)
  show List.insertionSort (fun a b => tokenLeB a b = true)
    ((renderRuns (a :: List.range' (a + 1) m) p ++ renderAllGroups []) ++ []) = _
  rw [renderAllGroups]
  unfold renderRuns
  rw [sortedDedup_eq_self hchain]
  rw [← List.range'_succ, runs_consec a m]
  simp only [List.map_cons, List.map_nil, List.append_nil]
  apply List.Sorted.insertionSort_eq
  exact List.pairwise_singleton _ _

/-! ### Lemmas: resolver memoization and load steps -/

theorem mkNetwork_prefixlen (ip : IpAddr) (plen : Nat) :
    (mkNetwork ip plen).prefixlen = plen := by
  cases ip <;> rfl

theorem mkNetwork_version (ip : IpAddr) (plen : Nat) :
    (mkNetwork ip plen).version = ip.version := by
  cases ip <;> rfl

theorem ruStep_host (acc : List (IpNetwork × String) × List (String × String)) (row : Row)
    (hn : ¬(pyStrip (rowGet row "Имя объекта") = ""))
    (hi : ¬(pyStrip (rowGet row "ip") = ""))
    (ip : IpAddr) (h3 : ip_address (pyStrip (rowGet row "ip")) = some ip)
    (plen : Nat)
    (h4 : (if pyStrip (rowGet row "mask") = "" then some (ipMaxPrefixLen ip)
           else maskToPrefixLen (pyStrip (rowGet row "mask"))) = some plen)
    (h5 : (((mkNetwork ip plen).version = 4 && (mkNetwork ip plen).prefixlen = 32) ||
          ((mkNetwork ip plen).version = 6 && (mkNetwork ip plen).prefixlen = 128)) = true) :
    ruStep acc row =
      (acc.1 ++ [(mkNetwork ip plen, pyStrip (rowGet row "Имя объекта"))],
        dictSet acc.2 (normalizeName (pyStrip (rowGet row "Имя объекта")))
          (pyStrip (rowGet row "ip"))) := by
  unfold ruStep
  simp only [hn, hi, h3, h4, h5]
  simp [hn, hi, h5]

theorem ruStep_subnet (acc : List (IpNetwork × String) × List (String × String)) (row : Row)
    (hn : ¬(pyStrip (rowGet row "Имя объекта") = ""))
    (hi : ¬(pyStrip (rowGet row "ip") = ""))
    (ip : IpAddr) (h3 : ip_address (pyStrip (rowGet row "ip")) = some ip)
    (plen : Nat)
    (h4 : (if pyStrip (rowGet row "mask") = "" then some (ipMaxPrefixLen ip)
           else maskToPrefixLen (pyStrip (rowGet row "mask"))) = some plen)
    (h5 : (((mkNetwork ip plen).version = 4 && (mkNetwork ip plen).prefixlen = 32) ||
          ((mkNetwork ip plen).version = 6 && (mkNetwork ip plen).prefixlen = 128)) = false) :
    ruStep acc row =
      (acc.1 ++ [(mkNetwork ip plen, pyStrip (rowGet row "Имя объекта"))],
        dictSetdefault acc.2 (normalizeName (pyStrip (rowGet row "Имя объекта")))
          (renderNetRef (mkNetwork ip plen))) := by
  unfold ruStep
  simp only [hn, hi, h3, h4, h5]
  simp [hn, hi, h5]

theorem enStep_eq (acc : List (IpNetwork × String) × List (String × String)) (row : Row)
    (hn : ¬(pyStrip (rowGet row "name") = ""))
    (hc : ¬(pyStrip (rowGet row "cidr") = ""))
    (network : IpNetwork) (h3 : ip_network (pyStrip (rowGet row "cidr")) = some network) :
    enStep acc row =
      (acc.1 ++ [(network, pyStrip (rowGet row "name"))],
        dictSet acc.2 (normalizeName (pyStrip (rowGet row "name")))
          (pyStrip (rowGet row "cidr"))) := by
  unfold enStep
  simp [hn, hc, h3]

theorem ruStep_skip_bigmask (acc : List (IpNetwork × String) × List (String × String))
    (row : Row) (v : Nat)
    (hip : ip_address (pyStrip (rowGet row "ip")) = some (IpAddr.v6 v))
    (hd : isDigitsL (pyStrip (rowGet row "mask")).data = true)
    (hb : 32 < digitsToNat (pyStrip (rowGet row "mask")).data) :
    ruStep acc row = acc := by
  have hm : ¬(pyStrip (rowGet row "mask") = "") := by
    intro he
    rw [he] at hd
    simp [isDigitsL] at hd
  unfold ruStep
  by_cases hn : pyStrip (rowGet row "Имя объекта") = ""
  · simp [hn]
  · by_cases hi : pyStrip (rowGet row "ip") = ""
    · simp [hn, hi]
    · simp [hn, hi, hip, hm, maskToPrefixLen_big_digits hd hb]

theorem ruStep_append {acc : List (IpNetwork × String) × List (String × String)}
    {row : Row} {net : IpNetwork} {name : String}
    (h : (ruStep acc row).1 = acc.1 ++ [(net, name)]) :
    ∃ ip plen,
      ip_address (pyStrip (rowGet row "ip")) = some ip ∧
      net = mkNetwork ip plen ∧
      ((pyStrip (rowGet row "mask") = "" ∧ plen = ipMaxPrefixLen ip) ∨
        (¬(pyStrip (rowGet row "mask") = "") ∧
          maskToPrefixLen (pyStrip (rowGet row "mask")) = some plen)) := by
  unfold ruStep at h
  by_cases hn : pyStrip (rowGet row "Имя объекта") = ""
  · simp [hn] at h
  · by_cases hi : pyStrip (rowGet row "ip") = ""
    · simp [hn, hi] at h
    · simp only [hn, hi] at h
      cases hipa : ip_address (pyStrip (rowGet row "ip")) with
      | none => simp [hn, hi, hipa] at h
      | some ip =>
        by_cases hm : pyStrip (rowGet row "mask") = ""
        · simp only [Bool.or_eq_true, decide_eq_true_eq] at h
          rw [if_neg (by simp [hn, hi])] at h
          simp only [hipa, hm, if_pos rfl] at h
          have h2 := List.append_cancel_left h
          simp only [List.cons.injEq, Prod.mk.injEq, and_true] at h2
          exact ⟨ip, ipMaxPrefixLen ip, rfl, h2.1.symm, Or.inl ⟨hm, rfl⟩⟩
        · cases hmk : maskToPrefixLen (pyStrip (rowGet row "mask")) with
          | none =>
            simp [hn, hi, hipa, hm, hmk] at h
          | some plen =>
            simp only [Bool.or_eq_true, decide_eq_true_eq] at h
            rw [if_neg (by simp [hn, hi])] at h
            simp only [hipa, hm, if_neg hm, hmk] at h
            have h2 := List.append_cancel_left h
            simp only [List.cons.injEq, Prod.mk.injEq, and_true] at h2
            exact ⟨ip, plen, rfl, h2.1.symm, Or.inr ⟨hm, rfl⟩⟩

/-! ### Helper facts for concrete instantiations -/

theorem goodKey_tcp : GoodKey "tcp" := by
  refine ⟨by decide, fun c hc => ?_⟩
  rw [show ("tcp" : String).data.getLast? = some 'p' from rfl] at hc
  cases hc
  rfl

theorem goodKey_udp : GoodKey "udp" := by
  refine ⟨by decide, fun c hc => ?_⟩
  rw [show ("udp" : String).data.getLast? = some 'p' from rfl] at hc
  cases hc
  rfl

/-! ### The claims -/

/-- C5: compress_ports is idempotent: for every input token list,
compressing the output of compress_ports returns it unchanged. -/
theorem C5_compress_ports_idempotent (x : List String) :
    compress_ports (compress_ports x) = compress_ports x :=
  compress_ports_of_canonical (canonical_compress_ports x)

/-- C4 counterexample: the token "abc/tcp" is malformed (non-numeric
port part, so it passes through), yet compress_ports keeps it under the
transport key "tcp", not "~": it sorts before the well-formed token
"53/udp" instead of after all well-formed tokens. -/
theorem C4_cx_passthrough_sort_key :
    compress_ports ["abc/tcp", "53/udp"] = ["abc/tcp", "53/udp"] ∧
    isWfTok "abc/tcp" = false ∧
    isWfTok "53/udp" = true ∧
    sortKey "abc/tcp" = ("tcp", 10 ^ 12, "abc/tcp") ∧
    ¬sortKey "abc/tcp" = ("~", 10 ^ 12, "abc/tcp") :=
  ⟨by decide, by decide, by decide, by decide, by decide⟩

/-- C4 (amended): the output of compress_ports is sorted by the key
(transport string, then leading number with ten to the twelfth for a
non-numeric part, then the literal token, compared lexicographically);
only a token with no slash at all sorts under the transport key "~",
while a slash token with a non-numeric port part keeps the transport
after its last slash. -/
theorem C4_amended_sort_order :
    (∀ x : List String, (compress_ports x).Pairwise (fun a b => tokenLeB a b = true)) ∧
    (∀ a b : String, tokenLeB a b = true ↔
      (strLtB (sortKey a).1 (sortKey b).1 = true ∨
        ((sortKey a).1 = (sortKey b).1 ∧
          ((sortKey a).2.1 < (sortKey b).2.1 ∨
            ((sortKey a).2.1 = (sortKey b).2.1 ∧
              strLeB (sortKey a).2.2 (sortKey b).2.2 = true))))) ∧
    (∀ t : String, splitLast '/' t.data = none → sortKey t = ("~", 10 ^ 12, t)) ∧
    (∀ (t : String) (pp pr : List Char), splitLast '/' t.data = some (pp, pr) →
      isDigitsL (match splitFirst '-' pp with | some q => q.1 | none => pp) = false →
      sortKey t = (String.mk pr, 10 ^ 12, t)) := by
  refine ⟨compress_ports_sorted, ?_, ?_, ?_⟩
  · intro a b
    rw [show tokenLeB a b = keyLeB (sortKey a) (sortKey b) from rfl]
    exact keyLeB_iff
  · intro t h
    unfold sortKey
    rw [h]
  · intro t pp pr h hd
    simp only [sortKey, h]
    rw [hd]
    simp

/-- C4 witness: the two key equations of the amended claim at concrete
tokens: a slashless token sorts under "~", a slash token with a
non-numeric port keeps its transport. -/
theorem C4_amended_sort_order_witness :
    sortKey "foo" = ("~", 10 ^ 12, "foo") ∧
    sortKey "abc/udp" = (String.mk "udp".data, 10 ^ 12, "abc/udp") :=
  ⟨C4_amended_sort_order.2.2.1 "foo" (by decide),
   C4_amended_sort_order.2.2.2 "abc/udp" "abc".data "udp".data (by decide) (by decide)⟩

/-- C8 counterexample: a header with exactly the columns object_name,
ip, mask is rejected by load, because the legacy schema's accepted
columns are the Russian names of ruCols, not object_name. -/
theorem C8_cx_legacy_header_rejected :
    FwObjectsLookup.load ["object_name", "ip", "mask"] [] =
      Except.error (LoadError.schemaError ruCols enCols) ∧
    ¬"object_name" ∈ ruCols :=
  ⟨by decide, by decide⟩

/-- C8 (amended): load succeeds exactly when the header contains every
column of ruCols (the legacy schema) or every column of enCols; a
header containing neither set yields the error naming both sets. -/
theorem C8_amended_schema_detection (header : List String) (rows : List Row) :
    (((ruCols.all fun c => header.contains c) ||
        (enCols.all fun c => header.contains c)) = true ↔
      ∃ t, FwObjectsLookup.load header rows = Except.ok t) ∧
    (((ruCols.all fun c => header.contains c) ||
        (enCols.all fun c => header.contains c)) = false →
      FwObjectsLookup.load header rows =
        Except.error (LoadError.schemaError ruCols enCols)) := by
  constructor
  · constructor
    · intro h
      refine ⟨⟨sortNetworks (loadRows (ruCols.all fun c => header.contains c) ([], []) rows).1,
        (loadRows (ruCols.all fun c => header.contains c) ([], []) rows).2⟩, ?_⟩
      simp only [FwObjectsLookup.load, h]
      simp
    · rintro ⟨t, ht⟩
      by_contra h
      have hf : ((ruCols.all fun c => header.contains c) ||
          (enCols.all fun c => header.contains c)) = false := Bool.eq_false_iff.mpr h
      simp only [FwObjectsLookup.load, hf, Bool.not_false] at ht
      rw [if_pos trivial] at ht
      exact Except.noConfusion ht
  · intro hf
    simp only [FwObjectsLookup.load, hf, Bool.not_false]
    rw [if_pos trivial]

/-- C8 witness: a header with an unknown column is rejected with the
error naming both column sets, and the EN header is accepted. -/
theorem C8_amended_schema_detection_witness :
    FwObjectsLookup.load ["x"] [] = Except.error (LoadError.schemaError ruCols enCols) ∧
    ((ruCols.all fun c => ["name", "cidr"].contains c) ||
      (enCols.all fun c => ["name", "cidr"].contains c)) = true :=
  ⟨(C8_amended_schema_detection ["x"] []).2 (by decide),
   (C8_amended_schema_detection ["name", "cidr"] []).1.mpr ⟨⟨[], []⟩, by decide⟩⟩

/-- C10: in the legacy schema the mask is parsed as an IPv4 network
prefix: any parsed mask is at most 32; a numeric mask above 32 fails to
parse; a row loaded with a non-empty mask has prefix length at most 32;
an IPv6 row with a numeric mask above 32 (such as 64) is skipped; and a
loaded /128 entry can only come from an empty mask field. -/
theorem C10_schema_a_mask_v4_only :
    (∀ (m : String) (p : Nat), maskToPrefixLen m = some p → p ≤ 32) ∧
    (∀ m : String, isDigitsL m.data = true → 32 < digitsToNat m.data →
      maskToPrefixLen m = none) ∧
    (∀ acc (row : Row) net name, (ruStep acc row).1 = acc.1 ++ [(net, name)] →
      ¬(pyStrip (rowGet row "mask") = "") → net.prefixlen ≤ 32) ∧
    (∀ acc (row : Row) (v : Nat),
      ip_address (pyStrip (rowGet row "ip")) = some (IpAddr.v6 v) →
      isDigitsL (pyStrip (rowGet row "mask")).data = true →
      32 < digitsToNat (pyStrip (rowGet row "mask")).data →
      ruStep acc row = acc) ∧
    (∀ acc (row : Row) net name, (ruStep acc row).1 = acc.1 ++ [(net, name)] →
      net.prefixlen = 128 → pyStrip (rowGet row "mask") = "") := by
  refine ⟨?_, ?_, ?_, ?_, ?_⟩
  · intro m p h
    exact maskToPrefixLen_le h
  · intro m hd hb
    exact maskToPrefixLen_big_digits hd hb
  · intro acc row net name h hm
    rcases ruStep_append h with ⟨ip, plen, hipa, hnet, hcase⟩
    rcases hcase with ⟨hm', _⟩ | ⟨_, hmk⟩
    · exact absurd hm' hm
    · rw [hnet, mkNetwork_prefixlen]
      exact maskToPrefixLen_le hmk
  · intro acc row v hip hd hb
    exact ruStep_skip_bigmask acc row v hip hd hb
  · intro acc row net name h hp
    rcases ruStep_append h with ⟨ip, plen, hipa, hnet, hcase⟩
    rcases hcase with ⟨hm', _⟩ | ⟨hm', hmk⟩
    · exact hm'
    · exfalso
      have hle := maskToPrefixLen_le hmk
      rw [hnet, mkNetwork_prefixlen] at hp
      omega

/-- C10 witness: the clauses at concrete rows: mask "24" parses to at
most 32; mask "64" fails; a dotted mask row loads with prefix 24; an
IPv6 row with mask "64" is skipped; a loaded IPv6 host row has an empty
mask field. -/
theorem C10_schema_a_mask_v4_only_witness :
    (24 : Nat) ≤ 32 ∧
    maskToPrefixLen "64" = none ∧
    (⟨4, 169108224, 24⟩ : IpNetwork).prefixlen ≤ 32 ∧
    ruStep ([], []) [("Имя объекта", "v1"), ("ip", "::1"), ("mask", "64")] = ([], []) ∧
    pyStrip (rowGet [("Имя объекта", "w1"), ("ip", "::2"), ("mask", "")] "mask") = "" := by
  refine ⟨?_, ?_, ?_, ?_, ?_⟩
  · exact C10_schema_a_mask_v4_only.1 "24" 24 (by decide)
  · exact C10_schema_a_mask_v4_only.2.1 "64" (by decide) (by decide)
  · exact C10_schema_a_mask_v4_only.2.2.1 ([], [])
      [("Имя объекта", "s1"), ("ip", "10.20.99.7"), ("mask", "255.255.255.0")]
      ⟨4, 169108224, 24⟩ "s1" (by decide) (by decide)
  · exact C10_schema_a_mask_v4_only.2.2.2.1 ([], [])
      [("Имя объекта", "v1"), ("ip", "::1"), ("mask", "64")] 1
      (by decide) (by decide) (by decide)
  · exact C10_schema_a_mask_v4_only.2.2.2.2 ([], [])
      [("Имя объекта", "w1"), ("ip", "::2"), ("mask", "")]
      ⟨6, 2, 128⟩ "w1" (by decide) (by decide)

/-- C9 counterexample: two EN rows with the same name "x" and two
subnet (/24) cidrs: the loaded name-to-ref map holds the second cidr,
so a later network entry overwrote the earlier mapping instead of
first-write-wins. -/
theorem C9_cx_en_subnet_overwrites :
    Except.map (fun t => t.find_ref_for_name "x")
      (FwObjectsLookup.load ["name", "cidr"]
        [[("name", "x"), ("cidr", "10.0.0.0/24")], [("name", "x"), ("cidr", "10.1.0.0/24")]]) =
      Except.ok (some "10.1.0.0/24") ∧
    ¬Except.map (fun t => t.find_ref_for_name "x")
      (FwObjectsLookup.load ["name", "cidr"]
        [[("name", "x"), ("cidr", "10.0.0.0/24")], [("name", "x"), ("cidr", "10.1.0.0/24")]]) =
      Except.ok (some "10.0.0.0/24") :=
  ⟨by decide, by decide⟩

/-- C9 (amended): the name-to-ref tie-break policy is schema-dependent.
Writing a key present in a Python dict replaces its value while
setdefault keeps the present value; a legacy-schema row processes an
exact host (prefix 32 for v4, 128 for v6) with a plain write of the ip
string and any other network with setdefault of the rendered network
reference; an EN-schema row always plain-writes the cidr string, so
under the EN schema a later duplicate name always overwrites. -/
theorem C9_amended_name_ref_policy :
    (∀ (d : List (String × String)) (k v : String),
      dictGet (dictSet d k v) k = some v) ∧
    (∀ (d : List (String × String)) (k v : String),
      dictGet (dictSetdefault d k v) k = some ((dictGet d k).getD v)) ∧
    (∀ acc (row : Row) (hn : ¬(pyStrip (rowGet row "Имя объекта") = ""))
      (hi : ¬(pyStrip (rowGet row "ip") = ""))
      (ip : IpAddr) (h3 : ip_address (pyStrip (rowGet row "ip")) = some ip)
      (plen : Nat)
      (h4 : (if pyStrip (rowGet row "mask") = "" then some (ipMaxPrefixLen ip)
             else maskToPrefixLen (pyStrip (rowGet row "mask"))) = some plen)
      (h5 : (((mkNetwork ip plen).version = 4 && (mkNetwork ip plen).prefixlen = 32) ||
            ((mkNetwork ip plen).version = 6 && (mkNetwork ip plen).prefixlen = 128)) = true),
      ruStep acc row =
        (acc.1 ++ [(mkNetwork ip plen, pyStrip (rowGet row "Имя объекта"))],
          dictSet acc.2 (normalizeName (pyStrip (rowGet row "Имя объекта")))
            (pyStrip (rowGet row "ip")))) ∧
    (∀ acc (row : Row) (hn : ¬(pyStrip (rowGet row "Имя объекта") = ""))
      (hi : ¬(pyStrip (rowGet row "ip") = ""))
      (ip : IpAddr) (h3 : ip_address (pyStrip (rowGet row "ip")) = some ip)
      (plen : Nat)
      (h4 : (if pyStrip (rowGet row "mask") = "" then some (ipMaxPrefixLen ip)
             else maskToPrefixLen (pyStrip (rowGet row "mask"))) = some plen)
      (h5 : (((mkNetwork ip plen).version = 4 && (mkNetwork ip plen).prefixlen = 32) ||
            ((mkNetwork ip plen).version = 6 && (mkNetwork ip plen).prefixlen = 128)) = false),
      ruStep acc row =
        (acc.1 ++ [(mkNetwork ip plen, pyStrip (rowGet row "Имя объекта"))],
          dictSetdefault acc.2 (normalizeName (pyStrip (rowGet row "Имя объекта")))
            (renderNetRef (mkNetwork ip plen)))) ∧
    (∀ acc (row : Row) (hn : ¬(pyStrip (rowGet row "name") = ""))
      (hc : ¬(pyStrip (rowGet row "cidr") = ""))
      (network : IpNetwork) (h3 : ip_network (pyStrip (rowGet row "cidr")) = some network),
      enStep acc row =
        (acc.1 ++ [(network, pyStrip (rowGet row "name"))],
          dictSet acc.2 (normalizeName (pyStrip (rowGet row "name")))
            (pyStrip (rowGet row "cidr")))) := by
  refine ⟨dictGet_dictSet_self, dictGet_dictSetdefault_self, ?_, ?_, ?_⟩
  · intro acc row hn hi ip h3 plen h4 h5
    exact ruStep_host acc row hn hi ip h3 plen h4 h5
  · intro acc row hn hi ip h3 plen h4 h5
    exact ruStep_subnet acc row hn hi ip h3 plen h4 h5
  · intro acc row hn hc network h3
    exact enStep_eq acc row hn hc network h3

/-- C9 witness: the policy clauses at concrete inputs: a write replaces
a present value, setdefault keeps it, and the three loop-body equations
evaluated on a host row, a subnet row and an EN row. -/
theorem C9_amended_name_ref_policy_witness :
    dictGet (dictSet [("x", "1")] "x" "2") "x" = some "2" ∧
    dictGet (dictSetdefault [("x", "1")] "x" "2") "x" = some "1" ∧
    ruStep ([], []) [("Имя объекта", "h1"), ("ip", "10.0.0.5"), ("mask", "")] =
      ([(⟨4, 167772165, 32⟩, "h1")], [("h1", "10.0.0.5")]) ∧
    ruStep ([], []) [("Имя объекта", "s1"), ("ip", "10.20.99.7"), ("mask", "255.255.255.0")] =
      ([(⟨4, 169108224, 24⟩, "s1")], [("s1", "10.20.99.0/24")]) ∧
    enStep ([], []) [("name", "e1"), ("cidr", "10.1.0.0/24")] =
      ([(⟨4, 167837696, 24⟩, "e1")], [("e1", "10.1.0.0/24")]) := by
  refine ⟨?_, ?_, ?_, ?_, ?_⟩
  · exact C9_amended_name_ref_policy.1 [("x", "1")] "x" "2"
  · exact (C9_amended_name_ref_policy.2.1 [("x", "1")] "x" "2").trans (by decide)
  · exact (C9_amended_name_ref_policy.2.2.1 ([], [])
      [("Имя объекта", "h1"), ("ip", "10.0.0.5"), ("mask", "")]
      (by decide) (by decide) (IpAddr.v4 167772165) (by decide) 32
      (by decide) (by decide)).trans (by decide)
  · exact (C9_amended_name_ref_policy.2.2.2.1 ([], [])
      [("Имя объекта", "s1"), ("ip", "10.20.99.7"), ("mask", "255.255.255.0")]
      (by decide) (by decide) (IpAddr.v4 169108231) (by decide) 24
      (by decide) (by decide)).trans (by decide)
  · exact (C9_amended_name_ref_policy.2.2.2.2 ([], [])
      [("name", "e1"), ("cidr", "10.1.0.0/24")]
      (by decide) (by decide) ⟨4, 167837696, 24⟩ (by decide)).trans (by decide)

/-- C2: after a successful load, find_name_for_ip on a parseable IP
returns the name of a containing same-version network of maximal
prefix length, returns none exactly when no same-version loaded
network contains the address, and on the two-network example prefers
the /16 entry B over the /8 entry A for 10.1.2.3. -/
theorem C2_find_name_for_ip_longest_match (header : List String) (rows : List Row)
    (t : FwObjectsLookup) (hload : FwObjectsLookup.load header rows = Except.ok t)
    (ip_str : String) (ip : IpAddr) (hip : ip_address ip_str = some ip) :
    (∀ name, t.find_name_for_ip ip_str = some name →
      ∃ net, (net, name) ∈ t.networks ∧ net.version = ip.version ∧
        ipInNetwork net ip = true ∧
        ∀ net' name', (net', name') ∈ t.networks → net'.version = ip.version →
          ipInNetwork net' ip = true → net'.prefixlen ≤ net.prefixlen) ∧
    (t.find_name_for_ip ip_str = none ↔
      ∀ net name, (net, name) ∈ t.networks → net.version = ip.version →
        ipInNetwork net ip = false) ∧
    (match FwObjectsLookup.load ["name", "cidr"]
        [[("name", "A"), ("cidr", "10.0.0.0/8")], [("name", "B"), ("cidr", "10.1.0.0/16")]] with
      | Except.ok tb => tb.find_name_for_ip "10.1.2.3"
      | Except.error _ => none) = some "B" := by
  have heq : t.find_name_for_ip ip_str = findNameScan t.networks ip := by
    unfold FwObjectsLookup.find_name_for_ip
    rw [hip]
  refine ⟨?_, ?_, by decide⟩
  · intro name hname
    rw [heq] at hname
    exact findNameScan_spec (load_networks_sorted hload) hname
  · rw [heq]
    exact findNameScan_eq_none

/-- C2 witness: the longest-match statement applied to a concrete
loaded table: on the loaded single-network /8 table an address outside
10.0.0.0/8 finds no name. -/
theorem C2_find_name_for_ip_longest_match_witness :
    FwObjectsLookup.find_name_for_ip
      ⟨[(⟨4, 167772160, 8⟩, "A")], [("a", "10.0.0.0/8")]⟩ "192.168.1.1" = none :=
  (C2_find_name_for_ip_longest_match ["name", "cidr"]
      [[("name", "A"), ("cidr", "10.0.0.0/8")]]
      ⟨[(⟨4, 167772160, 8⟩, "A")], [("a", "10.0.0.0/8")]⟩ (by decide)
      "192.168.1.1" (IpAddr.v4 3232235777) (by decide)).2.1.mpr
    (fun net name hm hv => by
      rw [List.mem_singleton, Prod.mk.injEq] at hm
      rw [hm.1]
      decide)

/-- C3: compress_ports on well-formed tokens: the classifier sends
nothing to the passthrough list and groups exactly the ports rendered
for each transport; on a strictly ascending list the computed runs
cover exactly its members, each run is an orderly interval, and
consecutive runs are separated by a gap of at least two (so every
maximal consecutive run is merged and nothing more); rendering emits
"port/proto" for a one-port run and "start-end/proto" otherwise; and
the concrete example evaluates as claimed. -/
theorem C3_compress_ports_run_merging :
    compress_ports ["4001/tcp", "4002/tcp", "4003/tcp", "53/udp", "4010/tcp"] =
      ["4001-4003/tcp", "4010/tcp", "53/udp"] ∧
    (∀ x : List String, (∀ u ∈ x, ∃ pr n, GoodKey pr ∧ u = render1 pr n) →
      ((classifyTokens ([], []) x).2 = [] ∧
        ∀ pr n, GoodKey pr →
          (n ∈ bpLookup (classifyTokens ([], []) x).1 pr ↔ render1 pr n ∈ x))) ∧
    (∀ l : List Nat, List.Chain' (fun a b : Nat => a < b) l →
      ((∀ n, inRuns (runs l) n ↔ n ∈ l) ∧
        (∀ se ∈ runs l, se.1 ≤ se.2) ∧
        List.Chain' (fun x y : Nat × Nat => x.2 + 2 ≤ y.1) (runs l))) ∧
    (∀ (pr : String) (ports : List Nat),
      renderRuns ports pr = (runs (sortedDedup ports)).map (renderInterval pr)) ∧
    (∀ (pr : String) (s e : Nat), renderInterval pr (s, e) =
      if s = e then natRepr s ++ "/" ++ pr
      else natRepr s ++ "-" ++ natRepr e ++ "/" ++ pr) := by
  refine ⟨by decide, ?_, ?_, fun pr ports => rfl, fun pr s e => rfl⟩
  · intro x hx
    constructor
    · rw [classify_snd x ([], [])]
      show [] ++ passList x = []
      rw [List.nil_append]
      unfold passList
      rw [List.filter_eq_nil_iff]
      intro a ha
      rcases List.mem_map.mp ha with ⟨u, hu, hau⟩
      rcases hx u hu with ⟨pr, n, gk, he⟩
      subst he
      rw [pyStrip_render1 gk] at hau
      rw [← hau, isWfTok_render1 _ _ gk.1]
      simp
    · intro pr n gk
      rw [classify_fst_mem x ([], []) pr n]
      constructor
      · rintro (h0 | ⟨u, hu, hk⟩)
        · simp [bpLookup] at h0
        · rcases hx u hu with ⟨pq, m, gq, he⟩
          subst he
          rw [tokKey_render1 gq] at hk
          simp only [Option.some.injEq, Prod.mk.injEq] at hk
          rw [← hk.1, ← hk.2]
          exact hu
      · intro hmem
        exact Or.inr ⟨render1 pr n, hmem, tokKey_render1 gk n⟩
  · intro l hc
    exact ⟨runs_mem hc, runs_le hc, runs_chain hc⟩

/-- C3 witness: the grouping and run clauses at concrete inputs: the
single token "7/tcp" classifies with an empty passthrough list and port
7 under "tcp"; on the ascending list 1, 2, 5 the runs contain 2, and
the runs are separated by a gap of at least two. -/
theorem C3_compress_ports_run_merging_witness :
    (classifyTokens ([], []) ["7/tcp"]).2 = [] ∧
    (7 ∈ bpLookup (classifyTokens ([], []) ["7/tcp"]).1 "tcp" ↔
      render1 "tcp" 7 ∈ ["7/tcp"]) ∧
    (inRuns (runs [1, 2, 5]) 2 ↔ 2 ∈ [1, 2, 5]) ∧
    List.Chain' (fun x y : Nat × Nat => x.2 + 2 ≤ y.1) (runs [1, 2, 5]) := by
  have hx : ∀ u ∈ ["7/tcp"], ∃ pr n, GoodKey pr ∧ u = render1 pr n := by
    intro u hu
    rw [List.mem_singleton] at hu
    subst hu
    exact ⟨"tcp", 7, goodKey_tcp, by decide⟩
  have hch : List.Chain' (fun a b : Nat => a < b) [1, 2, 5] := by
    rw [List.chain'_cons, List.chain'_cons]
    exact ⟨by omega, by omega, List.chain'_singleton 5⟩
  refine ⟨?_, ?_, ?_, ?_⟩
  · exact (C3_compress_ports_run_merging.2.1 ["7/tcp"] hx).1
  · exact (C3_compress_ports_run_merging.2.1 ["7/tcp"] hx).2 "tcp" 7 goodKey_tcp
  · exact (C3_compress_ports_run_merging.2.2.1 [1, 2, 5] hch).1 2
  · exact (C3_compress_ports_run_merging.2.2.1 [1, 2, 5] hch).2.2

/-- C6: expanding the range string "a-b" (a at most b) yields the
inclusive list of rendered single-port tokens and compressing that
list returns exactly the one rendered interval token; a non-range
token with no whitespace is kept verbatim with the proto suffix; and
the 7000-7002 round trip evaluates as claimed. -/
theorem C6_expand_compress_round_trip :
    (∀ (a b : Nat) (p : String), a ≤ b → GoodKey p →
      (expand_port_tokens (natRepr a ++ "-" ++ natRepr b) p =
          (List.range' a (b - a + 1)).map (fun k => render1 p k) ∧
        compress_ports ((List.range' a (b - a + 1)).map (fun k => render1 p k)) =
          [renderInterval p (a, b)])) ∧
    (∀ (t : List Char) (p : String), (∀ c ∈ t, pyIsSpace c = false) → t ≠ [] →
      (∀ q, splitFirst '-' t = some q →
        ¬(isDigitsL q.1 = true ∧ isDigitsL q.2 = true ∧
          digitsToNat q.1 ≤ digitsToNat q.2)) →
      expand_port_tokens (String.mk t) p = [String.mk t ++ "/" ++ p]) ∧
    expand_port_tokens "7000-7002" "tcp" = ["7000/tcp", "7001/tcp", "7002/tcp"] ∧
    compress_ports ["7000/tcp", "7001/tcp", "7002/tcp"] = ["7000-7002/tcp"] := by
  refine ⟨?_, ?_, by decide, by decide⟩
  · intro a b p hab gk
    constructor
    · exact expand_range a b hab p
    · have h := compress_map_single p gk a (b - a)
      rwa [Nat.add_sub_cancel' hab] at h
  · intro t p hnws hne h
    exact expand_single_verbatim t p hnws hne h

/-- C6 witness: the two general clauses at concrete inputs: the range
80-81 expands for udp to the two rendered ports and recompresses to
the single interval, and the dashless token "xy" is kept verbatim. -/
theorem C6_expand_compress_round_trip_witness :
    (expand_port_tokens (natRepr 80 ++ "-" ++ natRepr 81) "udp" =
        (List.range' 80 (81 - 80 + 1)).map (fun k => render1 "udp" k) ∧
      compress_ports ((List.range' 80 (81 - 80 + 1)).map (fun k => render1 "udp" k)) =
        [renderInterval "udp" (80, 81)]) ∧
    expand_port_tokens (String.mk ['x', 'y']) "udp" = [String.mk ['x', 'y'] ++ "/" ++ "udp"] := by
  constructor
  · exact C6_expand_compress_round_trip.1 80 81 "udp" (by decide) goodKey_udp
  · exact C6_expand_compress_round_trip.2.1 ['x', 'y'] "udp" (by decide) (by decide)
      (fun q hq => by
        rw [show splitFirst '-' ['x', 'y'] = (none : Option (List Char × List Char)) from rfl]
          at hq
        exact Option.noConfusion hq)

/-- C1: resolve_token follows the claimed state machine on a fresh
resolver: an empty or whitespace-only token gives the empty display; an
IP token with a truthy PTR answer gives hostname-bracket-ip; on a PTR
miss a truthy table name gives objectname-bracket-ip, a table miss
gives the question-mark form, and without a table the question-mark
form is reached directly; a non-IP token with a truthy forward answer
gives token-bracket-ip; on a miss a truthy name-to-ref hit gives
token-bracket-ref, a table miss gives token-bracket-question-mark, and
without a table that form is reached directly. -/
theorem C1_resolve_token_state_machine (ptrO aO : String → Option String)
    (fw : Option FwObjectsLookup) (tbl : FwObjectsLookup) (token : String) :
    (pyStrip token = "" →
      (DnsResolver.resolve_token ptrO aO (DnsResolver.init fw) token).1.display = "") ∧
    (¬(pyStrip token = "") → DnsResolver.is_ip (pyStrip token) = true →
      ∀ hname, ptrO (pyStrip token) = some hname → ¬(hname = "") →
      (DnsResolver.resolve_token ptrO aO (DnsResolver.init fw) token).1.display =
        hname ++ "[" ++ pyStrip token ++ "]") ∧
    (¬(pyStrip token = "") → DnsResolver.is_ip (pyStrip token) = true →
      truthy (ptrO (pyStrip token)) = false →
      ∀ n, tbl.find_name_for_ip (pyStrip token) = some n → ¬(n = "") →
      (DnsResolver.resolve_token ptrO aO (DnsResolver.init (some tbl)) token).1.display =
        n ++ "[" ++ pyStrip token ++ "]") ∧
    (¬(pyStrip token = "") → DnsResolver.is_ip (pyStrip token) = true →
      truthy (ptrO (pyStrip token)) = false →
      tbl.find_name_for_ip (pyStrip token) = none →
      (DnsResolver.resolve_token ptrO aO (DnsResolver.init (some tbl)) token).1.display =
        "?[" ++ pyStrip token ++ "]") ∧
    (¬(pyStrip token = "") → DnsResolver.is_ip (pyStrip token) = true →
      truthy (ptrO (pyStrip token)) = false →
      (DnsResolver.resolve_token ptrO aO (DnsResolver.init none) token).1.display =
        "?[" ++ pyStrip token ++ "]") ∧
    (¬(pyStrip token = "") → DnsResolver.is_ip (pyStrip token) = false →
      ∀ ipv, aO (pyStrip token) = some ipv → ¬(ipv = "") →
      (DnsResolver.resolve_token ptrO aO (DnsResolver.init fw) token).1.display =
        pyStrip token ++ "[" ++ ipv ++ "]") ∧
    (¬(pyStrip token = "") → DnsResolver.is_ip (pyStrip token) = false →
      truthy (aO (pyStrip token)) = false →
      ∀ r, tbl.find_ref_for_name (pyStrip token) = some r → ¬(r = "") →
      (DnsResolver.resolve_token ptrO aO (DnsResolver.init (some tbl)) token).1.display =
        pyStrip token ++ "[" ++ r ++ "]") ∧
    (¬(pyStrip token = "") → DnsResolver.is_ip (pyStrip token) = false →
      truthy (aO (pyStrip token)) = false →
      tbl.find_ref_for_name (pyStrip token) = none →
      (DnsResolver.resolve_token ptrO aO (DnsResolver.init (some tbl)) token).1.display =
        pyStrip token ++ "[?]") ∧
    (¬(pyStrip token = "") → DnsResolver.is_ip (pyStrip token) = false →
      truthy (aO (pyStrip token)) = false →
      (DnsResolver.resolve_token ptrO aO (DnsResolver.init none) token).1.display =
        pyStrip token ++ "[?]") := by
  refine ⟨?_, ?_, ?_, ?_, ?_, ?_, ?_, ?_, ?_⟩
  · intro hc
    simp [DnsResolver.resolve_token, hc]
  · intro hc hip hname hh hne
    have hres : DnsResolver.dns_ptr ptrO (DnsResolver.init fw) (pyStrip token) =
        (ptrO (pyStrip token), ⟨fw, [(pyStrip token, ptrO (pyStrip token))], []⟩, 1) := rfl
    simp [DnsResolver.resolve_token, hc, hip, hres, hh, truthy, hne]
  · intro hc hip ht n hfind hne
    have hres : DnsResolver.dns_ptr ptrO (DnsResolver.init (some tbl)) (pyStrip token) =
        (ptrO (pyStrip token), ⟨some tbl, [(pyStrip token, ptrO (pyStrip token))], []⟩, 1) := rfl
    simp [DnsResolver.resolve_token, hc, hip, hres, ht, hfind, hne]
  · intro hc hip ht hfind
    have hres : DnsResolver.dns_ptr ptrO (DnsResolver.init (some tbl)) (pyStrip token) =
        (ptrO (pyStrip token), ⟨some tbl, [(pyStrip token, ptrO (pyStrip token))], []⟩, 1) := rfl
    simp [DnsResolver.resolve_token, hc, hip, hres, ht, hfind]
  · intro hc hip ht
    have hres : DnsResolver.dns_ptr ptrO (DnsResolver.init none) (pyStrip token) =
        (ptrO (pyStrip token), ⟨none, [(pyStrip token, ptrO (pyStrip token))], []⟩, 1) := rfl
    simp [DnsResolver.resolve_token, hc, hip, hres, ht]
  · intro hc hip ipv hh hne
    have hres : DnsResolver.dns_a aO (DnsResolver.init fw) (pyStrip token) =
        (aO (pyStrip token), ⟨fw, [], [(pyStrip token, aO (pyStrip token))]⟩, 1) := rfl
    simp [DnsResolver.resolve_token, hc, hip, hres, hh, truthy, hne]
  · intro hc hip ht r hfind hne
    have hres : DnsResolver.dns_a aO (DnsResolver.init (some tbl)) (pyStrip token) =
        (aO (pyStrip token), ⟨some tbl, [], [(pyStrip token, aO (pyStrip token))]⟩, 1) := rfl
    simp [DnsResolver.resolve_token, hc, hip, hres, ht, hfind, hne]
  · intro hc hip ht hfind
    have hres : DnsResolver.dns_a aO (DnsResolver.init (some tbl)) (pyStrip token) =
        (aO (pyStrip token), ⟨some tbl, [], [(pyStrip token, aO (pyStrip token))]⟩, 1) := rfl
    simp [DnsResolver.resolve_token, hc, hip, hres, ht, hfind]
  · intro hc hip ht
    have hres : DnsResolver.dns_a aO (DnsResolver.init none) (pyStrip token) =
        (aO (pyStrip token), ⟨none, [], [(pyStrip token, aO (pyStrip token))]⟩, 1) := rfl
    simp [DnsResolver.resolve_token, hc, hip, hres, ht]

/-- C1 witness: every terminal of the state machine reached once at a
concrete oracle pair and table: PTR hit, table-name hit, table-name
miss, tableless IP miss, forward hit, name-to-ref hit, name-to-ref
miss, tableless name miss, and the empty token. -/
theorem C1_resolve_token_state_machine_witness :
    (DnsResolver.resolve_token (fun _ => none) (fun _ => none)
      (DnsResolver.init none) "   ").1.display = "" ∧
    (DnsResolver.resolve_token (fun s => if s = "10.0.0.5" then some "host5" else none)
      (fun _ => none) (DnsResolver.init none) " 10.0.0.5 ").1.display =
      "host5" ++ "[" ++ pyStrip " 10.0.0.5 " ++ "]" ∧
    (DnsResolver.resolve_token (fun _ => none) (fun _ => none)
      (DnsResolver.init (some ⟨[(⟨4, 167772160, 8⟩, "A")], [("srv", "10.0.0.0/8")]⟩))
      "10.0.0.7").1.display = "A" ++ "[" ++ pyStrip "10.0.0.7" ++ "]" ∧
    (DnsResolver.resolve_token (fun _ => none) (fun _ => none)
      (DnsResolver.init (some ⟨[(⟨4, 167772160, 8⟩, "A")], [("srv", "10.0.0.0/8")]⟩))
      "9.9.9.9").1.display = "?[" ++ pyStrip "9.9.9.9" ++ "]" ∧
    (DnsResolver.resolve_token (fun _ => none) (fun _ => none)
      (DnsResolver.init none) "10.0.0.7").1.display = "?[" ++ pyStrip "10.0.0.7" ++ "]" ∧
    (DnsResolver.resolve_token (fun _ => none)
      (fun s => if s = "web" then some "1.2.3.4" else none)
      (DnsResolver.init none) "web").1.display = pyStrip "web" ++ "[" ++ "1.2.3.4" ++ "]" ∧
    (DnsResolver.resolve_token (fun _ => none) (fun _ => none)
      (DnsResolver.init (some ⟨[(⟨4, 167772160, 8⟩, "A")], [("srv", "10.0.0.0/8")]⟩))
      "srv").1.display = pyStrip "srv" ++ "[" ++ "10.0.0.0/8" ++ "]" ∧
    (DnsResolver.resolve_token (fun _ => none) (fun _ => none)
      (DnsResolver.init (some ⟨[(⟨4, 167772160, 8⟩, "A")], [("srv", "10.0.0.0/8")]⟩))
      "nox").1.display = pyStrip "nox" ++ "[?]" ∧
    (DnsResolver.resolve_token (fun _ => none) (fun _ => none)
      (DnsResolver.init none) "nox").1.display = pyStrip "nox" ++ "[?]" := by
  refine ⟨?_, ?_, ?_, ?_, ?_, ?_, ?_, ?_, ?_⟩
  · exact (C1_resolve_token_state_machine (fun _ => none) (fun _ => none) none
      ⟨[], []⟩ "   ").1 (by decide)
  · exact (C1_resolve_token_state_machine
      (fun s => if s = "10.0.0.5" then some "host5" else none) (fun _ => none) none
      ⟨[], []⟩ " 10.0.0.5 ").2.1 (by decide) (by decide) "host5" (by decide) (by decide)
  · exact (C1_resolve_token_state_machine (fun _ => none) (fun _ => none) none
      ⟨[(⟨4, 167772160, 8⟩, "A")], [("srv", "10.0.0.0/8")]⟩ "10.0.0.7").2.2.1
      (by decide) (by decide) (by decide) "A" (by decide) (by decide)
  · exact (C1_resolve_token_state_machine (fun _ => none) (fun _ => none) none
      ⟨[(⟨4, 167772160, 8⟩, "A")], [("srv", "10.0.0.0/8")]⟩ "9.9.9.9").2.2.2.1
      (by decide) (by decide) (by decide) (by decide)
  · exact (C1_resolve_token_state_machine (fun _ => none) (fun _ => none) none
      ⟨[], []⟩ "10.0.0.7").2.2.2.2.1 (by decide) (by decide) (by decide)
  · exact (C1_resolve_token_state_machine (fun _ => none)
      (fun s => if s = "web" then some "1.2.3.4" else none) none
      ⟨[], []⟩ "web").2.2.2.2.2.1 (by decide) (by decide) "1.2.3.4" (by decide) (by decide)
  · exact (C1_resolve_token_state_machine (fun _ => none) (fun _ => none) none
      ⟨[(⟨4, 167772160, 8⟩, "A")], [("srv", "10.0.0.0/8")]⟩ "srv").2.2.2.2.2.2.1
      (by decide) (by decide) (by decide) "10.0.0.0/8" (by decide) (by decide)
  · exact (C1_resolve_token_state_machine (fun _ => none) (fun _ => none) none
      ⟨[(⟨4, 167772160, 8⟩, "A")], [("srv", "10.0.0.0/8")]⟩ "nox").2.2.2.2.2.2.2.1
      (by decide) (by decide) (by decide) (by decide)
  · exact (C1_resolve_token_state_machine (fun _ => none) (fun _ => none) none
      ⟨[], []⟩ "nox").2.2.2.2.2.2.2.2 (by decide) (by decide) (by decide)

/-- C7: resolving the same token twice through the same resolver
consults the DNS oracle at most once on the first resolution, never on
the second (the memoization caches answer it, a cached absent result
included), and both resolutions return the same result. -/
theorem C7_resolver_memoization (ptrO aO : String → Option String)
    (fw : Option FwObjectsLookup) (token : String) :
    (DnsResolver.resolve_token ptrO aO (DnsResolver.init fw) token).2.2 ≤ 1 ∧
    (DnsResolver.resolve_token ptrO aO
      (DnsResolver.resolve_token ptrO aO (DnsResolver.init fw) token).2.1 token).2.2 = 0 ∧
    (DnsResolver.resolve_token ptrO aO
      (DnsResolver.resolve_token ptrO aO (DnsResolver.init fw) token).2.1 token).1 =
      (DnsResolver.resolve_token ptrO aO (DnsResolver.init fw) token).1 := by
  by_cases hc : pyStrip token = ""
  · simp [DnsResolver.resolve_token, hc]
  · by_cases hip : DnsResolver.is_ip (pyStrip token) = true
    · have hres1 : DnsResolver.dns_ptr ptrO (DnsResolver.init fw) (pyStrip token) =
          (ptrO (pyStrip token), ⟨fw, [(pyStrip token, ptrO (pyStrip token))], []⟩, 1) := rfl
      have hres2 : DnsResolver.dns_ptr ptrO
          ⟨fw, [(pyStrip token, ptrO (pyStrip token))], []⟩ (pyStrip token) =
          (ptrO (pyStrip token), ⟨fw, [(pyStrip token, ptrO (pyStrip token))], []⟩, 0) := by
        unfold DnsResolver.dns_ptr
        simp [dictGet]
      by_cases ht : truthy (ptrO (pyStrip token)) = true
      · simp [DnsResolver.resolve_token, hc, hip, hres1, hres2, ht]
      · cases fw with
        | none => simp [DnsResolver.resolve_token, hc, hip, hres1, hres2, ht]
        | some tbl =>
          cases hf : tbl.find_name_for_ip (pyStrip token) with
          | none => simp [DnsResolver.resolve_token, hc, hip, hres1, hres2, ht, hf]
          | some n =>
            by_cases hn : n = ""
            · simp [DnsResolver.resolve_token, hc, hip, hres1, hres2, ht, hf, hn]
            · simp [DnsResolver.resolve_token, hc, hip, hres1, hres2, ht, hf, hn]
    · have hres1 : DnsResolver.dns_a aO (DnsResolver.init fw) (pyStrip token) =
          (aO (pyStrip token), ⟨fw, [], [(pyStrip token, aO (pyStrip token))]⟩, 1) := rfl
      have hres2 : DnsResolver.dns_a aO
          ⟨fw, [], [(pyStrip token, aO (pyStrip token))]⟩ (pyStrip token) =
          (aO (pyStrip token), ⟨fw, [], [(pyStrip token, aO (pyStrip token))]⟩, 0) := by
        unfold DnsResolver.dns_a
        simp [dictGet]
      by_cases ht : truthy (aO (pyStrip token)) = true
      · simp [DnsResolver.resolve_token, hc, hip, hres1, hres2, ht]
      · cases fw with
        | none => simp [DnsResolver.resolve_token, hc, hip, hres1, hres2, ht]
        | some tbl =>
          cases hf : tbl.find_ref_for_name (pyStrip token) with
          | none => simp [DnsResolver.resolve_token, hc, hip, hres1, hres2, ht, hf]
          | some r =>
            by_cases hn : r = ""
            · simp [DnsResolver.resolve_token, hc, hip, hres1, hres2, ht, hf, hn]
            · simp [DnsResolver.resolve_token, hc, hip, hres1, hres2, ht, hf, hn]
